import Mathlib

/-!
# Verification of the rustic-calc core against its specification

Shallow embedding of the algorithmic core of `rustic-calc`:

* `src/tokenize.rs`   — `tokenize`, implicit-multiplication insertion
* `src/calculate.rs`  — recursive-descent parser/evaluator `calculate`
* `src/inspect.rs`    — `inspect_unknown_variables`
* `src/variables.rs`  — `parse_variables`
* `src/input_editor.rs` — the modal (vi-style) `InputEditor`

Modelling conventions:

* Rust `&str` tokens are modelled as Lean `String`; raw input text is a
  `List Char` (the editor already works character-wise in the source, and
  the tokenizer only ever classifies ASCII bytes, so the byte/char
  distinction is immaterial for every property below).
* Rust `f64` values are modelled as `ℚ`.  Every numeric computation
  exercised by the specification's claims (small integer sums, products,
  integer powers, `2^-2 = 0.25`) is exact in IEEE-754 double precision,
  so the rational model agrees with `f64` on all of them.  `f64::powf`
  is modelled by `powf` below, which is exact for integer exponents
  (the only exponents the claims produce); for a non-integer exponent,
  for `0` raised to a negative power, and for IEEE infinities/NaN the
  model returns a junk value (`0`), mirroring the spec's remark that
  such cases follow IEEE-754 rather than being errors.
* `HashMap<String, VariableEntry>` is modelled as an association list
  with first-match lookup; `insert` conses a new binding (shadowing),
  which agrees with `HashMap` lookup-after-insert semantics.
* The parser's mutual recursion (`primary → expr` through parentheses,
  `unary → unary`) terminates in Rust because every cycle consumes a
  token; the embedding makes this explicit with a fuel parameter set to
  `tokens.length + 1`, which is decremented exactly on the
  token-consuming cycle edges and therefore never runs out.
-/

/-! ## Character classes (ASCII, as in the Rust source) -/

def isAsciiDigit (c : Char) : Bool := '0' ≤ c && c ≤ '9'

def isAsciiAlpha (c : Char) : Bool :=
  ('a' ≤ c && c ≤ 'z') || ('A' ≤ c && c ≤ 'Z')

/-- `u8::is_ascii_whitespace`: space, horizontal tab, newline, form feed,
carriage return. -/
def isAsciiWhitespace (c : Char) : Bool :=
  c = ' ' || c = '\t' || c = '\n' || c = '\x0c' || c = '\r'

/-! ## `str::parse::<f64>` — acceptance grammar and exact value

Rust's `f64: FromStr` accepts
`[+-]? ( 'inf' | 'infinity' | 'nan' (case-insensitive) | number )` with
`number := (digits | digits '.' digits? | '.' digits) ([eE] [+-]? digits)?`.
`parseNumber` recognises exactly this grammar; it returns the exact
rational value of a finite decimal literal, and the junk value `0` for
the `inf`/`infinity`/`nan` forms (which have no rational counterpart and
are never produced by the tokenizer nor exercised by any claim). -/

def digitsToNat (ds : List Char) : Nat :=
  ds.foldl (fun acc c => acc * 10 + (c.toNat - '0'.toNat)) 0

/-- Strip at most one leading `+` or `-`; return (negative?, rest). -/
def stripSign : List Char → Bool × List Char
  | [] => (false, [])
  | c :: r =>
    if c = '+' then (false, r)
    else if c = '-' then (true, r)
    else (false, c :: r)

def lowerAscii (c : Char) : Char :=
  if 'A' ≤ c && c ≤ 'Z' then Char.ofNat (c.toNat + 32) else c

/-- The special `inf` / `infinity` / `nan` spellings (case-insensitive). -/
def isSpecialFloat (cs : List Char) : Bool :=
  let l := cs.map lowerAscii
  l = ['i', 'n', 'f'] || l = ['i', 'n', 'f', 'i', 'n', 'i', 't', 'y'] ||
    l = ['n', 'a', 'n']

/-- Parse the optional exponent suffix; returns the exponent as an
integer, or `none` if the remaining characters are not a valid (possibly
empty) exponent part. -/
def parseExpPart : List Char → Option Int
  | [] => some 0
  | e :: r =>
    if e = 'e' ∨ e = 'E' then
      let (neg, r') := stripSign r
      if r' ≠ [] && r'.all isAsciiDigit then
        some (if neg then -(digitsToNat r' : Int) else (digitsToNat r' : Int))
      else
        none
    else
      none

/-- Parse the unsigned mantissa-plus-exponent part of a decimal float
literal, returning its exact rational value. -/
def parseMantissa (cs : List Char) : Option ℚ :=
  let intDigits := cs.takeWhile isAsciiDigit
  let rest := cs.dropWhile isAsciiDigit
  if rest ≠ [] ∧ rest.headI = '.' then
    let r := rest.tail
    let fracDigits := r.takeWhile isAsciiDigit
    let rest' := r.dropWhile isAsciiDigit
    if intDigits = [] ∧ fracDigits = [] then none
    else
      match parseExpPart rest' with
      | none => none
      | some e =>
        some ((digitsToNat (intDigits ++ fracDigits) : ℚ) /
          (10 : ℚ) ^ fracDigits.length * (10 : ℚ) ^ e)
  else
    if intDigits = [] then none
    else
      match parseExpPart rest with
      | none => none
      | some e => some ((digitsToNat intDigits : ℚ) * (10 : ℚ) ^ e)

/-- Model of `tok.parse::<f64>()`: `some v` iff Rust's parse succeeds
(with `v` the exact value for finite literals, junk `0` for
`inf`/`nan`). -/
def parseNumber (s : String) : Option ℚ :=
  let (neg, cs) := stripSign s.toList
  if isSpecialFloat cs then some 0
  else
    match parseMantissa cs with
    | none => none
    | some v => some (if neg then -v else v)

/-- Model of `tok.parse::<f64>().is_ok()`. -/
def rustFloatAccepts (s : String) : Bool := (parseNumber s).isSome

/-! ## Tokenizer (`src/tokenize.rs`) -/

/-- `is_identifier_token`: a single ASCII-alphabetic character. -/
def is_identifier_token (tok : String) : Bool :=
  tok.toList.length = 1 && tok.toList.all isAsciiAlpha

/-- The byte loop of `is_number_token`, carrying the `saw_digit` and
`saw_dot` flags. -/
def numberTokenScan : List Char → Bool → Bool → Bool
  | [], sawDigit, _ => sawDigit
  | c :: r, sawDigit, sawDot =>
    if isAsciiDigit c then numberTokenScan r true sawDot
    else if c = '.' && !sawDot then numberTokenScan r sawDigit true
    else false

/-- `is_number_token`: ASCII digits with at most one `.`, at least one
digit. -/
def is_number_token (tok : String) : Bool :=
  numberTokenScan tok.toList false false

/-- `needs_implicit_mul_before_ident`: last emitted token is a number,
a single-letter identifier, or `)`. -/
def needs_implicit_mul_before_ident (tokens : List String) : Bool :=
  match tokens.getLast? with
  | some tok => is_number_token tok || is_identifier_token tok || tok = ")"
  | none => false

/-- `needs_implicit_mul_before_number`: last emitted token is a
single-letter identifier or `)`. -/
def needs_implicit_mul_before_number (tokens : List String) : Bool :=
  match tokens.getLast? with
  | some tok => is_identifier_token tok || tok = ")"
  | none => false

/-- The inner number loop of `tokenize`: consume digits and at most one
`.`; returns the consumed characters and the remaining input. -/
def takeNumberRun (sawDot : Bool) : List Char → List Char × List Char
  | [] => ([], [])
  | c :: r =>
    if isAsciiDigit c then
      let (tk, rest) := takeNumberRun sawDot r
      (c :: tk, rest)
    else if c = '.' && !sawDot then
      let (tk, rest) := takeNumberRun true r
      (c :: tk, rest)
    else
      ([], c :: r)

/-- The inner alphabetic loop of `tokenize`: each further letter is
emitted as `*` followed by the single-letter token. -/
def takeAlphaRun : List Char → List String × List Char
  | [] => ([], [])
  | c :: r =>
    if isAsciiAlpha c then
      let (tks, rest) := takeAlphaRun r
      ("*" :: String.mk [c] :: tks, rest)
    else
      ([], c :: r)

theorem takeNumberRun_length (sawDot : Bool) (l : List Char) :
    (takeNumberRun sawDot l).2.length ≤ l.length := by
  induction l generalizing sawDot with
  | nil => simp [takeNumberRun]
  | cons c r ih =>
    simp only [takeNumberRun]
    split
    · simpa using Nat.le_succ_of_le (ih _)
    · split
      · simpa using Nat.le_succ_of_le (ih _)
      · simp

theorem takeAlphaRun_length (l : List Char) :
    (takeAlphaRun l).2.length ≤ l.length := by
  induction l with
  | nil => simp [takeAlphaRun]
  | cons c r ih =>
    simp only [takeAlphaRun]
    split
    · simpa using Nat.le_succ_of_le ih
    · simp

/-- The main scanning loop of `tokenize` (`while i < bytes.len()`),
with the emitted-so-far tokens as accumulator. -/
def tokenizeGo (l : List Char) (tokens : List String) : List String :=
  match l with
  | [] => tokens
  | b :: r =>
    if isAsciiWhitespace b then
      tokenizeGo r tokens
    else if isAsciiDigit b || b = '.' then
      tokenizeGo (takeNumberRun (b = '.') r).2
        ((if needs_implicit_mul_before_number tokens then tokens ++ ["*"]
          else tokens) ++ [String.mk (b :: (takeNumberRun (b = '.') r).1)])
    else if isAsciiAlpha b then
      tokenizeGo (takeAlphaRun r).2
        ((if needs_implicit_mul_before_ident tokens then tokens ++ ["*"]
          else tokens) ++ [String.mk [b]] ++ (takeAlphaRun r).1)
    else if b = '+' then tokenizeGo r (tokens ++ ["+"])
    else if b = '-' then tokenizeGo r (tokens ++ ["-"])
    else if b = '*' then tokenizeGo r (tokens ++ ["*"])
    else if b = '/' then tokenizeGo r (tokens ++ ["/"])
    else if b = '^' then tokenizeGo r (tokens ++ ["^"])
    else if b = '=' then tokenizeGo r (tokens ++ ["="])
    else if b = '(' then tokenizeGo r (tokens ++ ["("])
    else if b = ')' then tokenizeGo r (tokens ++ [")"])
    else tokenizeGo r tokens
termination_by l.length
decreasing_by
  all_goals simp_all
  · exact Nat.lt_succ_of_le (takeNumberRun_length _ _)
  · exact Nat.lt_succ_of_le (takeAlphaRun_length _)

/-- `tokenize` (`src/tokenize.rs`): raw characters to token strings. -/
def tokenize (phrase : List Char) : List String := tokenizeGo phrase []

/-! ## Variable environment (`src/types.rs`, `HashMap<String, VariableEntry>`) -/

/-- `VariableEntry` (`src/types.rs`), with `f64` modelled as `ℚ`. -/
structure VariableEntry where
  expression : String
  value : ℚ
deriving Repr, DecidableEq

/-- The variable environment: an association list with first-match
lookup, modelling `HashMap<String, VariableEntry>`. -/
def Env : Type := List (String × VariableEntry)

/-- `variables.get(tok)`. -/
def getVar (env : Env) (name : String) : Option VariableEntry :=
  List.lookup name env

/-- `variables.insert(name, entry)`: the new binding shadows any old
one under first-match lookup. -/
def insertVar (env : Env) (name : String) (entry : VariableEntry) : Env :=
  (name, entry) :: env

/-- The empty environment. -/
def emptyEnv : Env := []

/-! ## Parser/evaluator (`src/calculate.rs`) -/

/-- `f64::powf`, modelled on `ℚ`: exact for integer exponents (the only
exponents the verified claims produce); the junk value `0` stands in for
the IEEE-754 results of non-integer exponents and of `0` to a negative
power, which `ℚ` cannot represent. -/
def powf (base expo : ℚ) : ℚ :=
  if expo.den = 1 then base ^ expo.num else 0

/-- Parser state: the token slice and the cursor `pos` into it
(`struct Parser`). -/
structure PState where
  tokens : List String
  pos : Nat
deriving Repr, DecidableEq

/-- `Parser::peek`. -/
def peekTok (st : PState) : Option String := st.tokens.get? st.pos

/-- `Parser::consume(expected)`: returns the (possibly advanced) state
and whether the expected token was consumed. -/
def consumeTok (st : PState) (expected : String) : Bool × PState :=
  if peekTok st = some expected then (true, ⟨st.tokens, st.pos + 1⟩)
  else (false, st)

/-- `Parser::next`. -/
def nextTok (st : PState) : Option String × PState :=
  match peekTok st with
  | some tok => (some tok, ⟨st.tokens, st.pos + 1⟩)
  | none => (none, st)

mutual

/-- `Parser::parse_expr` — `expr := add_sub`.  In Rust the recursion
terminates because every cycle through the call graph consumes a token;
the embedding makes this explicit with a fuel parameter decremented on
every call, so that fuel bounds the call depth.  `calculate` supplies
`8 * (tokens.length + 1)` fuel, far above the actual depth (at most six
tiers per consumed token), so `"out of fuel"` is unreachable. -/
def parseExpr (env : Env) : Nat → PState → Except String (ℚ × PState)
  | 0, _ => .error "out of fuel"
  | fuel + 1, st => parseAddSub env fuel st
termination_by structural fuel _a => fuel

/-- `Parser::parse_add_sub` — `add_sub := mul_div (("+" | "-") mul_div)*`. -/
def parseAddSub (env : Env) : Nat → PState → Except String (ℚ × PState)
  | 0, _ => .error "out of fuel"
  | fuel + 1, st => do
    let (lhs, st) ← parseMulDiv env fuel st
    addSubLoop env fuel lhs st
termination_by structural fuel _a => fuel

/-- The `loop` inside `parse_add_sub`. -/
def addSubLoop (env : Env) : Nat → ℚ → PState → Except String (ℚ × PState)
  | 0, _, _ => .error "out of fuel"
  | fuel + 1, lhs, st =>
    match consumeTok st "+" with
    | (true, st) => do
      let (rhs, st) ← parseMulDiv env fuel st
      addSubLoop env fuel (lhs + rhs) st
    | (false, _) =>
      match consumeTok st "-" with
      | (true, st) => do
        let (rhs, st) ← parseMulDiv env fuel st
        addSubLoop env fuel (lhs - rhs) st
      | (false, _) => .ok (lhs, st)
termination_by structural fuel _a _b => fuel

/-- `Parser::parse_mul_div` — `mul_div := unary (("*" | "/") unary)*`. -/
def parseMulDiv (env : Env) : Nat → PState → Except String (ℚ × PState)
  | 0, _ => .error "out of fuel"
  | fuel + 1, st => do
    let (lhs, st) ← parseUnary env fuel st
    mulDivLoop env fuel lhs st
termination_by structural fuel _a => fuel

/-- The `loop` inside `parse_mul_div`.  Division is exact rational
division (`x / 0 = 0` is the junk stand-in for the IEEE infinity). -/
def mulDivLoop (env : Env) : Nat → ℚ → PState → Except String (ℚ × PState)
  | 0, _, _ => .error "out of fuel"
  | fuel + 1, lhs, st =>
    match consumeTok st "*" with
    | (true, st) => do
      let (rhs, st) ← parseUnary env fuel st
      mulDivLoop env fuel (lhs * rhs) st
    | (false, _) =>
      match consumeTok st "/" with
      | (true, st) => do
        let (rhs, st) ← parseUnary env fuel st
        mulDivLoop env fuel (lhs / rhs) st
      | (false, _) => .ok (lhs, st)
termination_by structural fuel _a _b => fuel

/-- `Parser::parse_unary` — `unary := ("+" | "-") unary | power`. -/
def parseUnary (env : Env) : Nat → PState → Except String (ℚ × PState)
  | 0, _ => .error "out of fuel"
  | fuel + 1, st =>
    match consumeTok st "+" with
    | (true, st) => parseUnary env fuel st
    | (false, _) =>
      match consumeTok st "-" with
      | (true, st) => do
        let (v, st) ← parseUnary env fuel st
        .ok (-v, st)
      | (false, _) => parsePower env fuel st
termination_by structural fuel _a => fuel

/-- `Parser::parse_power` — `power := primary ("^" unary)?`
(right-associative because the exponent is parsed via `unary → power`). -/
def parsePower (env : Env) : Nat → PState → Except String (ℚ × PState)
  | 0, _ => .error "out of fuel"
  | fuel + 1, st => do
    let (base, st) ← parsePrimary env fuel st
    match consumeTok st "^" with
    | (true, st) => do
      let (expo, st) ← parseUnary env fuel st
      .ok (powf base expo, st)
    | (false, _) => .ok (base, st)
termination_by structural fuel _a => fuel

/-- `Parser::parse_primary` — `primary := NUMBER | IDENT | "(" expr ")"`. -/
def parsePrimary (env : Env) : Nat → PState → Except String (ℚ × PState)
  | 0, _ => .error "out of fuel"
  | fuel + 1, st =>
    match nextTok st with
    | (none, _) => .error "Expression could not be parsed"
    | (some tok, st) =>
      if tok = "(" then do
        let (v, st) ← parseExpr env fuel st
        match consumeTok st ")" with
        | (true, st) => .ok (v, st)
        | (false, _) => .error "Missing closing \')\'"
      else if tok = ")" then
        .error "Unexpected token: )"
      else
        match parseNumber tok with
        | some num => .ok (num, st)
        | none =>
          match getVar env tok with
          | some entry => .ok (entry.value, st)
          | none => .error ("Unknown variable: " ++ tok)
termination_by structural fuel _a => fuel

end

def calculate (tokens : List String) (env : Env) : Except String ℚ :=
  if tokens = [] then .error "Expression could not be parsed"
  else do
    let (value, st) ← parseExpr env (8 * (tokens.length + 1)) ⟨tokens, 0⟩
    match peekTok st with
    | some tok => .error ("Unexpected token: " ++ tok)
    | none => .ok value

/-! ## Unknown-variable inspector (`src/inspect.rs`) -/

/-- `OPERATORS` (`src/inspect.rs`). -/
def OPERATORS : List String := ["+", "-", "*", "/", "^"]

/-- `PHRASE_LIMITERS` (`src/inspect.rs`). -/
def PHRASE_LIMITERS : List String := ["(", ")"]

/-- The loop body of `inspect_unknown_variables`, with the accumulated
unknowns made explicit. -/
def inspectGo (env : Env) : List String → List String → List String
  | [], acc => acc
  | t :: rest, acc =>
    if rustFloatAccepts t then inspectGo env rest acc
    else if OPERATORS.contains t || PHRASE_LIMITERS.contains t then
      inspectGo env rest acc
    else if (getVar env t).isSome then inspectGo env rest acc
    else if acc.contains t then inspectGo env rest acc
    else inspectGo env rest (acc ++ [t])

/-- `inspect_unknown_variables` (`src/inspect.rs`). -/
def inspect_unknown_variables (tokens : List String) (env : Env) :
    List String :=
  inspectGo env tokens []

/-! ## Assignment splitting (`src/variables.rs`) -/

/-- `VariableParseReturn` (`src/variables.rs`). -/
structure VariableParseReturn where
  var_name : String
  tokens : List String
deriving Repr, DecidableEq

/-- `parse_variables` (`src/variables.rs`): split the token sequence on
the first `=`. -/
def parse_variables (tokens : List String) :
    Except String VariableParseReturn :=
  if ¬ tokens.contains "=" then .error "No assignment found"
  else
    match tokens.indexOf? "=" with
    | none => .error "No assignment found"
    | some assignmentIndex =>
      if assignmentIndex = 0 then .error "Missing variable name before '='"
      else
        .ok ⟨(tokens.get? (assignmentIndex - 1)).getD "",
          tokens.drop (assignmentIndex + 1)⟩

/-! ## Modal input editor (`src/input_editor.rs`)

The buffer is a `List Char`; the source already performs every edit at
character (not byte) granularity (`chars()`, `char_indices()`), so this
is a faithful model.  `KeyEvent` carries only the key code as far as
`handle_key_event` is concerned. -/

/-- `InputEditMode`. -/
inductive InputEditMode where
  | Insert
  | Normal
  | Visual
deriving Repr, DecidableEq

/-- `EditorCommand`. -/
inductive EditorCommand where
  | None
  | Submit
  | ExitInputMode
  | IncrementFocus
  | DecrementFocus
  | Yanked (start : Nat) (stop : Nat)
deriving Repr, DecidableEq

/-- `Motion`. -/
inductive Motion where
  | Left
  | Right
  | LineStart
  | LineEnd
  | WordForward
  | WordBackward
deriving Repr, DecidableEq

/-- The key codes `handle_key_event` distinguishes
(`crossterm::event::KeyCode`). -/
inductive KeyCode where
  | Esc
  | Enter
  | Tab
  | BackTab
  | Backspace
  | Left
  | Right
  | Char (c : Char)
deriving Repr, DecidableEq

/-- `InputEditor` state. -/
structure InputEditor where
  input : List Char
  cursor : Nat
  mode : InputEditMode
  register : List Char
  visual_anchor : Option Nat
deriving Repr, DecidableEq

namespace InputEditor

/-- `InputEditor::new`. -/
def new : InputEditor := ⟨[], 0, .Insert, [], none⟩

/-- `InputEditor::with_input`. -/
def with_input (input : List Char) : InputEditor :=
  ⟨input, input.length, .Insert, [], none⟩

/-- `char_len`. -/
def char_len (ed : InputEditor) : Nat := ed.input.length

/-- `is_word_char`: alphanumeric or `_`.  (`char::is_alphanumeric` is
Unicode-aware; for the ASCII inputs of every claim the ASCII classes
agree with it.) -/
def is_word_char (c : Char) : Bool :=
  isAsciiAlpha c || isAsciiDigit c || c = '_'

/-- `clamp_cursor_for_mode`. -/
def clamp_cursor_for_mode (ed : InputEditor) : InputEditor :=
  { ed with
    cursor :=
      match ed.mode with
      | .Insert => min ed.cursor ed.char_len
      | .Normal | .Visual =>
        if ed.char_len = 0 then 0 else min ed.cursor (ed.char_len - 1) }

/-- `switch_to_insert_mode`. -/
def switch_to_insert_mode (ed : InputEditor) : InputEditor :=
  { ed with
    mode := .Insert
    cursor := min ed.cursor ed.char_len
    visual_anchor := none }

/-- `switch_to_normal_mode`. -/
def switch_to_normal_mode (ed : InputEditor) : InputEditor :=
  let len := ed.char_len
  { ed with
    mode := .Normal
    visual_anchor := none
    cursor :=
      if len = 0 then 0
      else
        match ed.mode with
        | .Insert => min (ed.cursor - 1) (len - 1)
        | .Normal | .Visual => min ed.cursor (len - 1) }

/-- `switch_to_visual_mode`. -/
def switch_to_visual_mode (ed : InputEditor) : InputEditor :=
  if ed.char_len = 0 then
    { ed with mode := .Visual, cursor := 0, visual_anchor := none }
  else
    { ed with
      mode := .Visual
      cursor := min ed.cursor (ed.char_len - 1)
      visual_anchor := some (min ed.cursor (ed.char_len - 1)) }

/-- `move_insert_left`. -/
def move_insert_left (ed : InputEditor) : InputEditor :=
  { ed with cursor := ed.cursor - 1 }

/-- `move_insert_right`. -/
def move_insert_right (ed : InputEditor) : InputEditor :=
  { ed with cursor := min (ed.cursor + 1) ed.char_len }

/-- `enter_char`: insert at the cursor's character index
(`byte_index_from_char_index` falls back to the end of the buffer). -/
def enter_char (ed : InputEditor) (ch : Char) : InputEditor :=
  { ed with
    input := ed.input.take ed.cursor ++ ch :: ed.input.drop ed.cursor
    cursor := ed.cursor + 1 }

/-- `backspace`. -/
def backspace (ed : InputEditor) : InputEditor :=
  if ed.cursor = 0 then ed
  else
    { ed with
      input := ed.input.take (ed.cursor - 1) ++ ed.input.drop ed.cursor
      cursor := ed.cursor - 1 }

/-- `delete_under_cursor`. -/
def delete_under_cursor (ed : InputEditor) : InputEditor :=
  let len := ed.char_len
  if len = 0 ∨ ed.cursor ≥ len then ed
  else
    let newInput := ed.input.take ed.cursor ++ ed.input.drop (ed.cursor + 1)
    let newLen := newInput.length
    { ed with
      input := newInput
      cursor :=
        if newLen = 0 then 0
        else if ed.cursor ≥ newLen then newLen - 1
        else ed.cursor }

/-- `visual_range`: the normalised inclusive selection. -/
def visual_range (ed : InputEditor) : Option (Nat × Nat) :=
  let len := ed.char_len
  if len = 0 then none
  else
    match ed.visual_anchor with
    | none => none
    | some a =>
      let anchor := min a (len - 1)
      let cursor := min ed.cursor (len - 1)
      if anchor ≤ cursor then some (anchor, cursor) else some (cursor, anchor)

/-- `slice_char_range` (half-open on characters). -/
def slice_char_range (ed : InputEditor) (start stop : Nat) : List Char :=
  (ed.input.drop start).take (stop - start)

/-- `yank_visual_selection`. -/
def yank_visual_selection (ed : InputEditor) : InputEditor :=
  match ed.visual_range with
  | some (a, b) => { ed with register := ed.slice_char_range a (b + 1) }
  | none => ed

/-- `delete_visual_selection`. -/
def delete_visual_selection (ed : InputEditor) : InputEditor :=
  match ed.visual_range with
  | none => ed
  | some (a, b) =>
    let newInput := ed.input.take a ++ ed.input.drop (b + 1)
    let newLen := newInput.length
    { ed with
      input := newInput
      cursor := if newLen = 0 then 0 else min a (newLen - 1) }

/-- The cursor computation of `motion_target` for `WordForward` and
`WordBackward` is phrased with `skipWhile p l j`: the first index `≥ j`
whose character fails `p` (or `l.length`). -/
def skipWhile (p : Char → Bool) (l : List Char) (j : Nat) : Nat :=
  match h : l.get? j with
  | some c => if p c then skipWhile p l (j + 1) else j
  | none => j
termination_by l.length - j
decreasing_by
  have : j < l.length := List.get?_eq_some.mp h |>.1
  omega

/-- The backward scan of `motion_target`'s `WordBackward` arm:
`while j > 0 && !word(chars[j]) { j -= 1 }`. -/
def backSkipNonWord (l : List Char) : Nat → Nat
  | 0 => 0
  | j + 1 =>
    if ¬ is_word_char (l.getD (j + 1) ' ') then backSkipNonWord l j
    else j + 1

/-- The backward scan of `motion_target`'s `WordBackward` arm:
`while j > 0 && word(chars[j-1]) { j -= 1 }`. -/
def backSkipWord (l : List Char) : Nat → Nat
  | 0 => 0
  | j + 1 =>
    if is_word_char (l.getD j ' ') then backSkipWord l j
    else j + 1

/-- `motion_target`. -/
def motion_target (ed : InputEditor) (motion : Motion) : Nat :=
  let chars := ed.input
  let len := chars.length
  if len = 0 then 0
  else
    let i := min ed.cursor (len - 1)
    match motion with
    | .Left => i - 1
    | .Right => min (i + 1) (len - 1)
    | .LineStart => 0
    | .LineEnd => len - 1
    | .WordForward =>
      let j :=
        if is_word_char (chars.getD i ' ') then skipWhile is_word_char chars i
        else i
      let j := skipWhile (fun c => !(is_word_char c)) chars j
      if j ≥ len then len - 1 else j
    | .WordBackward =>
      if i = 0 then 0
      else backSkipWord chars (backSkipNonWord chars (i - 1))

/-- `apply_motion`. -/
def apply_motion (ed : InputEditor) (motion : Motion) : InputEditor :=
  { ed with cursor := ed.motion_target motion }

/-- `paste_after`. -/
def paste_after (ed : InputEditor) : InputEditor :=
  if ed.register = [] then ed
  else
    let regLen := ed.register.length
    let len := ed.char_len
    let insertAt := if len = 0 then 0 else min (ed.cursor + 1) len
    let ed' :=
      { ed with
        input := ed.input.take insertAt ++ ed.register ++ ed.input.drop insertAt
        cursor := insertAt + regLen - 1 }
    ed'.clamp_cursor_for_mode

/-- `paste_before`. -/
def paste_before (ed : InputEditor) : InputEditor :=
  if ed.register = [] then ed
  else
    let regLen := ed.register.length
    let insertAt := min ed.cursor ed.char_len
    let ed' :=
      { ed with
        input := ed.input.take insertAt ++ ed.register ++ ed.input.drop insertAt
        cursor := insertAt + regLen - 1 }
    ed'.clamp_cursor_for_mode

/-- `motion_from_key`. -/
def motion_from_key (code : KeyCode) : Option Motion :=
  match code with
  | .Left => some .Left
  | .Right => some .Right
  | .Char c =>
    if c = 'h' then some .Left
    else if c = 'l' then some .Right
    else if c = '0' then some .LineStart
    else if c = '$' then some .LineEnd
    else if c = 'w' then some .WordForward
    else if c = 'b' then some .WordBackward
    else none
  | _ => none

/-- `handle_insert_key`. -/
def handle_insert_key (ed : InputEditor) (code : KeyCode) :
    InputEditor × EditorCommand :=
  match code with
  | .Esc => (ed.switch_to_normal_mode, .None)
  | .Enter => (ed, .Submit)
  | .Char ch => (ed.enter_char ch, .None)
  | .Backspace => (ed.backspace, .None)
  | .Left => (ed.move_insert_left, .None)
  | .Right => (ed.move_insert_right, .None)
  | _ => (ed, .None)

/-- `handle_normal_key`. -/
def handle_normal_key (ed : InputEditor) (code : KeyCode) :
    InputEditor × EditorCommand :=
  match code with
  | .Esc => (ed, .ExitInputMode)
  | .Enter => (ed, .Submit)
  | .Tab => (ed, .IncrementFocus)
  | .BackTab => (ed, .DecrementFocus)
  | .Char c =>
    if c = 'i' then (ed.switch_to_insert_mode, .None)
    else if c = 'a' then
      let len := ed.char_len
      let ed :=
        { ed with cursor := if len = 0 then 0 else min (ed.cursor + 1) len }
      (ed.switch_to_insert_mode, .None)
    else if c = 'I' then (({ ed with cursor := 0 }).switch_to_insert_mode, .None)
    else if c = 'A' then
      (({ ed with cursor := ed.char_len }).switch_to_insert_mode, .None)
    else if c = 'x' then (ed.delete_under_cursor, .None)
    else if c = 'v' then (ed.switch_to_visual_mode, .None)
    else if c = 'p' then (ed.paste_after, .None)
    else if c = 'P' then (ed.paste_before, .None)
    else
      match motion_from_key (.Char c) with
      | some motion => (ed.apply_motion motion, .None)
      | none => (ed, .None)
  | other =>
    match motion_from_key other with
    | some motion => (ed.apply_motion motion, .None)
    | none => (ed, .None)

/-- `handle_visual_key`. -/
def handle_visual_key (ed : InputEditor) (code : KeyCode) :
    InputEditor × EditorCommand :=
  match code with
  | .Esc => (ed.switch_to_normal_mode, .None)
  | .Enter => (ed, .Submit)
  | .Char c =>
    if c = 'v' then (ed.switch_to_normal_mode, .None)
    else if c = 'y' then
      let yankedRange := ed.visual_range
      let ed := ed.yank_visual_selection.switch_to_normal_mode
      match yankedRange with
      | some (a, b) => (ed, .Yanked a b)
      | none => (ed, .None)
    else if c = 'd' ∨ c = 'x' then
      (ed.delete_visual_selection.switch_to_normal_mode, .None)
    else
      match motion_from_key (.Char c) with
      | some motion => (ed.apply_motion motion, .None)
      | none => (ed, .None)
  | other =>
    match motion_from_key other with
    | some motion => (ed.apply_motion motion, .None)
    | none => (ed, .None)

/-- `handle_key_event`. -/
def handle_key_event (ed : InputEditor) (code : KeyCode) :
    InputEditor × EditorCommand :=
  match ed.mode with
  | .Insert => ed.handle_insert_key code
  | .Normal => ed.handle_normal_key code
  | .Visual => ed.handle_visual_key code

/-- Apply a sequence of key events, keeping only the editor state. -/
def applyKeys (ed : InputEditor) (keys : List KeyCode) : InputEditor :=
  keys.foldl (fun e k => (e.handle_key_event k).1) ed

end InputEditor

/-! ## Helper lemmas -/

theorem indexOf?_append_cons (pre post : List String) (hnp : "=" ∉ pre) :
    (pre ++ "=" :: post).indexOf? "=" = some pre.length := by
  induction pre with
  | nil => simp [List.indexOf?_cons]
  | cons x xs ih =>
    have hx : x ≠ "=" := by
      intro h
      exact hnp (h ▸ List.mem_cons_self x xs)
    have hxs : "=" ∉ xs := fun h => hnp (List.mem_cons_of_mem x h)
    simp only [List.cons_append, List.indexOf?_cons]
    rw [if_neg (by simp [hx]), ih hxs]
    rfl

theorem parse_variables_split (pre post : List String) (hne : pre ≠ [])
    (hnp : "=" ∉ pre) :
    parse_variables (pre ++ "=" :: post) = .ok ⟨pre.getLast hne, post⟩ := by
  have hmem : "=" ∈ pre ++ "=" :: post := by simp
  have hidx := indexOf?_append_cons pre post hnp
  have hlen : pre.length ≠ 0 := by
    simpa using fun h => hne (List.length_eq_zero.mp h)
  have h1 : (((pre ++ "=" :: post).get? (pre.length - 1)).getD "") =
      pre.getLast hne := by
    have hlt : pre.length - 1 < pre.length := by omega
    rw [List.get?_append hlt, List.getLast_eq_get]
    rw [List.get?_eq_get hlt]
    rfl
  have h2 : (pre ++ "=" :: post).drop (pre.length + 1) = post := by
    have h : pre ++ "=" :: post = (pre ++ ["="]) ++ post := by simp
    rw [h]
    have hl : pre.length + 1 = (pre ++ ["="]).length := by simp
    rw [hl, List.drop_left]
  unfold parse_variables
  rw [if_neg (by simpa using hmem), hidx]
  simp only [hlen, if_false]
  rw [h1, h2]

/-- The rational value `parseNumber` assigns to a plain digit-run
literal (no sign, no dot, no exponent). -/
def numVal (ds : List Char) : ℚ :=
  (digitsToNat ds : ℚ) * (10 : ℚ) ^ (0 : ℤ)

theorem numVal_two : numVal ['2'] = 2 := by
  rw [numVal, show digitsToNat ['2'] = 2 from rfl]
  norm_num

theorem numVal_three : numVal ['3'] = 3 := by
  rw [numVal, show digitsToNat ['3'] = 3 from rfl]
  norm_num

theorem powf_three_two : powf 3 2 = 9 := by
  rw [powf, show ((2 : ℚ)).den = 1 from rfl, if_pos rfl,
    show ((2 : ℚ)).num = ((2 : ℕ) : ℤ) from rfl, zpow_natCast]
  norm_num

theorem powf_two_nine : powf 2 9 = 512 := by
  rw [powf, show ((9 : ℚ)).den = 1 from rfl, if_pos rfl,
    show ((9 : ℚ)).num = ((9 : ℕ) : ℤ) from rfl, zpow_natCast]
  norm_num

theorem powf_two_two : powf 2 2 = 4 := by
  rw [powf, show ((2 : ℚ)).den = 1 from rfl, if_pos rfl,
    show ((2 : ℚ)).num = ((2 : ℕ) : ℤ) from rfl, zpow_natCast]
  norm_num

theorem powf_two_negtwo : powf 2 (-2) = 1 / 4 := by
  rw [powf, show ((-2 : ℚ)).den = 1 from rfl, if_pos rfl,
    show ((-2 : ℚ)).num = -((2 : ℕ) : ℤ) from rfl, zpow_neg, zpow_natCast]
  norm_num

/-! ## Claim theorems -/

/-- **C1.**  `calculate` respects the standard precedence hierarchy on
numeric-literal/operator token sequences, with `+ -` and `* /`
left-associative and `^` right-associative: `2 + 3 * 2` evaluates to
`8`, `2 * 3 ^ 2` to `18`, and `2 ^ 3 ^ 2` to `2 ^ (3 ^ 2) = 512` — not
`(2 ^ 3) ^ 2 = 64`.  (All these computations are exact in `f64`, so the
rational model coincides with the Rust values.) -/
theorem calculate_precedence_and_power_right_assoc :
    calculate ["2", "+", "3", "*", "2"] emptyEnv = .ok 8 ∧
    calculate ["2", "*", "3", "^", "2"] emptyEnv = .ok 18 ∧
    calculate ["2", "^", "3", "^", "2"] emptyEnv = .ok 512 ∧
    calculate ["2", "^", "3", "^", "2"] emptyEnv ≠ .ok 64 := by
  have h1 : calculate ["2", "+", "3", "*", "2"] emptyEnv =
      .ok (numVal ['2'] + numVal ['3'] * numVal ['2']) := rfl
  have h2 : calculate ["2", "*", "3", "^", "2"] emptyEnv =
      .ok (numVal ['2'] * powf (numVal ['3']) (numVal ['2'])) := rfl
  have h3 : calculate ["2", "^", "3", "^", "2"] emptyEnv =
      .ok (powf (numVal ['2']) (powf (numVal ['3']) (numVal ['2']))) := rfl
  rw [h1, h2, h3, numVal_two, numVal_three, powf_three_two, powf_two_nine]
  refine ⟨by norm_num, by norm_num, rfl, ?_⟩
  intro h
  have : (512 : ℚ) = 64 := by injection h
  norm_num at this

/-- **C2.**  Unary sign binds tighter than binary `+`/`-` but looser
than `^`'s left operand, and is accepted on the right of `^`:
`- 2 ^ 2` evaluates to `-(2^2) = -4` (not `(-2)^2 = 4`),
`- 2 + 2 * 2` to `2`, and `2 ^ - 2` to `0.25` without error. -/
theorem calculate_unary_sign_binding :
    calculate ["-", "2", "^", "2"] emptyEnv = .ok (-4) ∧
    calculate ["-", "2", "^", "2"] emptyEnv ≠ .ok 4 ∧
    calculate ["-", "2", "+", "2", "*", "2"] emptyEnv = .ok 2 ∧
    calculate ["2", "^", "-", "2"] emptyEnv = .ok (1 / 4) := by
  have h1 : calculate ["-", "2", "^", "2"] emptyEnv =
      .ok (-(powf (numVal ['2']) (numVal ['2']))) := rfl
  have h2 : calculate ["-", "2", "+", "2", "*", "2"] emptyEnv =
      .ok (-(numVal ['2']) + numVal ['2'] * numVal ['2']) := rfl
  have h3 : calculate ["2", "^", "-", "2"] emptyEnv =
      .ok (powf (numVal ['2']) (-(numVal ['2']))) := rfl
  rw [h1, h2, h3, numVal_two, powf_two_two, powf_two_negtwo]
  refine ⟨rfl, ?_, by norm_num, rfl⟩
  intro h
  have : (-4 : ℚ) = 4 := by injection h
  norm_num at this

/-- **C9.**  `parse_variables` splits on the first `=`; it returns an
error exactly when no `=` token is present or when `=` is the first
token (so no variable name precedes it), and succeeds in all other
cases. -/
theorem parse_variables_error_iff (ts : List String) :
    (∃ e, parse_variables ts = .error e) ↔
      ("=" ∉ ts ∨ ts.head? = some "=") := by
  by_cases hmem : "=" ∈ ts
  · cases ts with
    | nil => simp at hmem
    | cons x rest =>
      by_cases hx : x = "="
      · subst hx
        have herr : parse_variables ("=" :: rest) =
            .error "Missing variable name before '='" := by
          unfold parse_variables
          rw [if_neg (by simp)]
          rw [List.indexOf?_cons]
          simp
        simp [herr]
      · have hrest : "=" ∈ rest := by
          rcases List.mem_cons.mp hmem with h | h
          · exact absurd h.symm hx
          · exact h
        have hnn : rest.indexOf? "=" ≠ none := by
          intro hn
          rw [List.indexOf?_eq_none_iff] at hn
          exact hn "=" hrest (by simp)
        obtain ⟨k, hk⟩ := Option.ne_none_iff_exists'.mp hnn
        have hok : parse_variables (x :: rest) =
            .ok ⟨((x :: rest).get? k).getD "",
              (x :: rest).drop (k + 1 + 1)⟩ := by
          unfold parse_variables
          rw [if_neg (by simp [hrest])]
          rw [List.indexOf?_cons, if_neg (by simp [hx]), hk]
          simp
        simp [hok, hmem, hx]
  · have herr : parse_variables ts = .error "No assignment found" := by
      unfold parse_variables
      rw [if_pos (by simpa using hmem)]
    simp [herr, hmem]

/-- **C10.**  When the first `=` sits at index `k ≥ 1`, `parse_variables`
succeeds, takes only the single token at index `k - 1` as the variable
name (silently discarding all earlier tokens), and returns the tokens
after the `=`.  In particular the tokens of `"2x=5"` yield name `"x"`
with `"2"` and `"*"` dropped, and the tokens of `"ab=3"` yield `"b"`. -/
theorem parse_variables_takes_token_before_eq (pre post : List String)
    (hne : pre ≠ []) (hnp : "=" ∉ pre) :
    parse_variables (pre ++ "=" :: post) = .ok ⟨pre.getLast hne, post⟩ ∧
    parse_variables (tokenize "2x=5".toList) = .ok ⟨"x", ["5"]⟩ ∧
    parse_variables (tokenize "ab=3".toList) = .ok ⟨"b", ["3"]⟩ := by
  refine ⟨parse_variables_split pre post hne hnp, ?_, ?_⟩
  · have ht : tokenize "2x=5".toList = ["2", "*", "x", "=", "5"] := by
      simp [tokenize, tokenizeGo, takeAlphaRun, takeNumberRun,
        needs_implicit_mul_before_ident, needs_implicit_mul_before_number,
        isAsciiWhitespace, isAsciiDigit, isAsciiAlpha, is_number_token,
        is_identifier_token, numberTokenScan]
    rw [ht]
    have h := parse_variables_split ["2", "*", "x"] ["5"] (by simp) (by simp)
    simpa using h
  · have ht : tokenize "ab=3".toList = ["a", "*", "b", "=", "3"] := by
      simp [tokenize, tokenizeGo, takeAlphaRun, takeNumberRun,
        needs_implicit_mul_before_ident, needs_implicit_mul_before_number,
        isAsciiWhitespace, isAsciiDigit, isAsciiAlpha, is_number_token,
        is_identifier_token, numberTokenScan]
    rw [ht]
    have h := parse_variables_split ["a", "*", "b"] ["3"] (by simp) (by simp)
    simpa using h

/-- Witness for C10: the general split applied to the tokens of
`"2x=5"`. -/
theorem parse_variables_takes_token_before_eq_witness :
    parse_variables ["2", "*", "x", "=", "5"] = .ok ⟨"x", ["5"]⟩ := by
  have h := parse_variables_takes_token_before_eq ["2", "*", "x"] ["5"]
    (by simp) (by simp)
  simpa using h.1

/-- The combined "known token" test of `inspect_unknown_variables`, as
the code performs it: parses as a float, or is in `OPERATORS` or
`PHRASE_LIMITERS`, or is an environment key. -/
def knownToken (t : String) (env : Env) : Bool :=
  rustFloatAccepts t || OPERATORS.contains t || PHRASE_LIMITERS.contains t ||
    (getVar env t).isSome

/-- Modelled from the claim's wording: a token is known if it parses as
a float, is one of the defined operator/structural symbols
`+ - * / ^ ( ) =`, or is a key of the environment. -/
def knownTokenClaim (t : String) (env : Env) : Bool :=
  rustFloatAccepts t ||
    (["+", "-", "*", "/", "^", "(", ")", "="] : List String).contains t ||
    (getVar env t).isSome

/-- The claim's predicate with `=` removed from the symbol list — the
amendment the code forces (`=` is in neither `OPERATORS` nor
`PHRASE_LIMITERS`). -/
def knownTokenAmended (t : String) (env : Env) : Bool :=
  rustFloatAccepts t ||
    (["+", "-", "*", "/", "^", "(", ")"] : List String).contains t ||
    (getVar env t).isSome

/-- First-occurrence deduplication, written independently of the
inspector's accumulator loop. -/
def dedupFirstOcc : List String → List String
  | [] => []
  | x :: xs => x :: dedupFirstOcc (xs.filter (fun y => !(y == x)))
termination_by l => l.length
decreasing_by
  exact Nat.lt_succ_of_le (List.length_filter_le _ _)

theorem knownToken_eq_amended (t : String) (env : Env) :
    knownToken t env = knownTokenAmended t env := by
  simp [knownToken, knownTokenAmended, OPERATORS, PHRASE_LIMITERS,
    List.contains_cons, Bool.or_assoc]

theorem inspectGo_cons_known {t : String} {env : Env} (ts acc : List String)
    (h : knownToken t env = true) :
    inspectGo env (t :: ts) acc = inspectGo env ts acc := by
  have h' : rustFloatAccepts t = true ∨ (t ∈ OPERATORS ∨ t ∈ PHRASE_LIMITERS) ∨
      (getVar env t).isSome = true := by
    simpa [knownToken, or_assoc] using h
  conv_lhs => rw [inspectGo.eq_def]
  by_cases hf : rustFloatAccepts t = true
  · simp [hf]
  · by_cases hop : t ∈ OPERATORS ∨ t ∈ PHRASE_LIMITERS
    · simp [hf, hop]
    · have hv : (getVar env t).isSome = true := by tauto
      simp [hf, hop, hv]

theorem inspectGo_cons_unknown {t : String} {env : Env} (ts acc : List String)
    (h : knownToken t env = false) :
    inspectGo env (t :: ts) acc =
      if acc.contains t then inspectGo env ts acc
      else inspectGo env ts (acc ++ [t]) := by
  have h' : rustFloatAccepts t = false ∧ t ∉ OPERATORS ∧ t ∉ PHRASE_LIMITERS ∧
      (getVar env t).isSome = false := by
    constructor
    · by_cases hf : rustFloatAccepts t = true
      · simp [knownToken, hf] at h
      · simpa using hf
    constructor
    · intro hmem
      simp [knownToken, hmem] at h
    constructor
    · intro hmem
      simp [knownToken, hmem] at h
    · by_cases hv : (getVar env t).isSome = true
      · simp [knownToken, hv] at h
      · simpa using hv
  obtain ⟨hf, ho, hp, hv⟩ := h'
  conv_lhs => rw [inspectGo.eq_def]
  by_cases hc : acc.contains t <;> simp [hf, ho, hp, hv, hc]

theorem inspectGo_eq_dedup (env : Env) (ts : List String) :
    ∀ acc : List String,
      inspectGo env ts acc =
        acc ++ dedupFirstOcc
          ((ts.filter (fun t => !(knownToken t env))).filter
            (fun t => !(acc.contains t))) := by
  induction ts with
  | nil => intro acc; simp [inspectGo, dedupFirstOcc]
  | cons t ts ih =>
    intro acc
    by_cases hk : knownToken t env
    · rw [inspectGo_cons_known ts acc hk, ih acc]
      simp [hk]
    · rw [inspectGo_cons_unknown ts acc (by simpa using hk)]
      by_cases hc : t ∈ acc
      · rw [if_pos (show acc.contains t = true by simpa using hc), ih acc]
        simp [hc, hk]
      · rw [if_neg (show ¬ acc.contains t = true by simpa using hc),
          ih (acc ++ [t])]
        have hkf : knownToken t env = false := by simpa using hk
        simp only [List.filter_cons, hkf, Bool.not_false, if_true]
        rw [if_pos (show (!acc.contains t) = true by simpa using hc)]
        rw [dedupFirstOcc]
        simp only [List.append_assoc, List.singleton_append,
          List.filter_filter]
        congr 2
        refine congrArg dedupFirstOcc (List.filter_congr ?_)
        intro a _
        by_cases h1 : a = t <;> by_cases h2 : a ∈ acc <;>
          simp [h1, h2, List.elem_eq_mem]

/-- **C4 counterexample.**  The claim lists `=` among the defined
operator/structural symbols, so the token `=` should be known and never
reported.  But the code's symbol lists (`OPERATORS`, `PHRASE_LIMITERS`)
do not include `=`: on the token sequence `["="]` with an empty
environment, `inspect_unknown_variables` reports `"="` as unknown,
while the claim's own "known" predicate declares it known and therefore
predicts an empty report. -/
theorem inspect_unknown_eq_token_counterexample :
    inspect_unknown_variables ["="] emptyEnv = ["="] ∧
    knownTokenClaim "=" emptyEnv = true ∧
    inspect_unknown_variables ["="] emptyEnv ≠
      dedupFirstOcc (["="].filter (fun t => !(knownTokenClaim t emptyEnv))) := by
  refine ⟨rfl, rfl, ?_⟩
  have h : (["="].filter (fun t => !(knownTokenClaim t emptyEnv))) =
      ([] : List String) := rfl
  rw [h, dedupFirstOcc,
    show inspect_unknown_variables ["="] emptyEnv = ["="] from rfl]
  simp

/-- **C4 (amended).**  `inspect_unknown_variables` returns exactly the
tokens that do not parse as a float, are not one of the symbols
`+ - * / ^ ( )` (the claim's list *minus* `=`, which the code treats as
unknown), and are not keys of the environment — in first-occurrence
order without duplicates. -/
theorem inspect_unknown_characterization (tokens : List String) (env : Env) :
    inspect_unknown_variables tokens env =
      dedupFirstOcc (tokens.filter (fun t => !(knownTokenAmended t env))) := by
  rw [inspect_unknown_variables, inspectGo_eq_dedup]
  have h1 : (tokens.filter (fun t => !(knownToken t env))).filter
      (fun t => !(([] : List String).contains t)) =
      tokens.filter (fun t => !(knownToken t env)) := by
    simp
  rw [h1]
  have h2 : tokens.filter (fun t => !(knownToken t env)) =
      tokens.filter (fun t => !(knownTokenAmended t env)) := by
    refine List.filter_congr ?_
    intro a _
    rw [knownToken_eq_amended]
  rw [h2]
  simp

/-- Emission of the letters after the first one of an alphabetic run:
`*` then the single-letter token, per letter. -/
def starTokens : List Char → List String
  | [] => []
  | c :: r => "*" :: String.mk [c] :: starTokens r

theorem alpha_ne (c : Char) (h : isAsciiAlpha c = true) (d : Char)
    (hd : isAsciiAlpha d = false) : c ≠ d := by
  intro he
  rw [he, hd] at h
  cases h

theorem alpha_not_ws (c : Char) (h : isAsciiAlpha c = true) :
    isAsciiWhitespace c = false := by
  have h1 := alpha_ne c h ' ' rfl
  have h2 := alpha_ne c h '\t' rfl
  have h3 := alpha_ne c h '\n' rfl
  have h4 := alpha_ne c h '\x0c' rfl
  have h5 := alpha_ne c h '\r' rfl
  simp [isAsciiWhitespace, h1, h2, h3, h4, h5]

theorem alpha_not_digit (c : Char) (h : isAsciiAlpha c = true) :
    isAsciiDigit c = false := by
  simp only [isAsciiAlpha, Bool.or_eq_true, Bool.and_eq_true,
    decide_eq_true_eq] at h
  simp only [isAsciiDigit]
  rcases h with ⟨h1, _⟩ | ⟨h1, _⟩ <;>
  · have hc : ¬ (c ≤ '9') := fun hc => absurd (le_trans h1 hc) (by decide)
    simp [hc]

theorem takeAlphaRun_spec (w rest : List Char)
    (hw : ∀ c ∈ w, isAsciiAlpha c = true)
    (hrest : ∀ c, rest.head? = some c → isAsciiAlpha c = false) :
    takeAlphaRun (w ++ rest) = (starTokens w, rest) := by
  induction w with
  | nil =>
    cases rest with
    | nil => rfl
    | cons c r =>
      have hc := hrest c rfl
      simp [takeAlphaRun, starTokens, hc]
  | cons c w ih =>
    have hc := hw c (List.mem_cons_self c w)
    simp only [List.cons_append, takeAlphaRun, hc, if_true, List.append_eq]
    rw [ih (fun d hd => hw d (List.mem_cons_of_mem c hd))]
    simp [starTokens]

/-- **C7.**  On a maximal alphabetic run, `tokenize` emits each letter
as its own single-letter identifier token with `*` between consecutive
letters, inserting a `*` before the run exactly when the previously
emitted token is a numeric literal, a single-letter identifier, or `)`;
in particular `tokenize "abc" = ["a","*","b","*","c"]` and
`tokenize "7x" = ["7","*","x"]`. -/
theorem tokenize_alpha_runs (acc : List String) (b : Char) (w rest : List Char)
    (hb : isAsciiAlpha b = true) (hw : ∀ c ∈ w, isAsciiAlpha c = true)
    (hrest : ∀ c, rest.head? = some c → isAsciiAlpha c = false) :
    tokenizeGo ((b :: w) ++ rest) acc =
      tokenizeGo rest
        ((if needs_implicit_mul_before_ident acc then acc ++ ["*"] else acc)
          ++ [String.mk [b]] ++ starTokens w) ∧
    tokenize "abc".toList = ["a", "*", "b", "*", "c"] ∧
    tokenize "7x".toList = ["7", "*", "x"] := by
  refine ⟨?_, ?_, ?_⟩
  · have hws := alpha_not_ws b hb
    have hd := alpha_not_digit b hb
    have hdot : ¬ b = '.' := alpha_ne b hb '.' rfl
    conv_lhs => rw [tokenizeGo.eq_def]
    simp only [List.cons_append, hws, hd, hdot, hb, Bool.false_eq_true,
      if_false, Bool.or_self, if_true, decide_False, Bool.or_false]
    rw [takeAlphaRun_spec w rest hw hrest]
  · simp [tokenize, tokenizeGo, takeAlphaRun, takeNumberRun,
      needs_implicit_mul_before_ident, needs_implicit_mul_before_number,
      isAsciiWhitespace, isAsciiDigit, isAsciiAlpha, is_number_token,
      is_identifier_token, numberTokenScan]
  · simp [tokenize, tokenizeGo, takeAlphaRun, takeNumberRun,
      needs_implicit_mul_before_ident, needs_implicit_mul_before_number,
      isAsciiWhitespace, isAsciiDigit, isAsciiAlpha, is_number_token,
      is_identifier_token, numberTokenScan]

/-- Witness for C7: the alphabetic-run property applied to the concrete
run `'a' :: ['b']` with empty accumulator and empty remainder. -/
theorem tokenize_alpha_runs_witness :
    tokenizeGo (('a' :: ['b']) ++ ([] : List Char)) [] =
      tokenizeGo []
        ((if needs_implicit_mul_before_ident [] then ["*"] else [])
          ++ [String.mk ['a']] ++ starTokens ['b']) := by
  have h := tokenize_alpha_runs [] 'a' ['b'] [] (by decide)
    (by intro c hc; simp at hc; rw [hc]; rfl) (by simp)
  simpa using h.1

theorem exceptBind_ok {ε α β : Type} (a : α) (f : α → Except ε β) :
    (Except.ok a : Except ε α) >>= f = f a := rfl

theorem exceptBind_error {ε α β : Type} (e : ε) (f : α → Except ε β) :
    (Except.error e : Except ε α) >>= f = Except.error e := rfl

/-- Evaluating a single identifier token resolves it in the
environment: the heart of the assignment round-trip. -/
theorem calculate_single_ident (name : String) (env : Env)
    (entry : VariableEntry)
    (hnum : parseNumber name = none)
    (hplus : name ≠ "+") (hminus : name ≠ "-")
    (hlp : name ≠ "(") (hrp : name ≠ ")")
    (hget : getVar env name = some entry) :
    calculate [name] env = .ok entry.value := by
  have hpeek1 : ∀ s : String, consumeTok ⟨[name], 1⟩ s = (false, ⟨[name], 1⟩) := by
    intro s
    simp [consumeTok, peekTok]
  have hprim : ∀ f, parsePrimary env (f + 1) ⟨[name], 0⟩ =
      .ok (entry.value, ⟨[name], 1⟩) := by
    intro f
    simp [parsePrimary, nextTok, peekTok, hnum, hget, hlp, hrp]
  have hpow : ∀ f, parsePower env (f + 2) ⟨[name], 0⟩ =
      .ok (entry.value, ⟨[name], 1⟩) := by
    intro f
    simp [parsePower, hprim, exceptBind_ok, hpeek1]
  have hun : ∀ f, parseUnary env (f + 3) ⟨[name], 0⟩ =
      .ok (entry.value, ⟨[name], 1⟩) := by
    intro f
    simp [parseUnary, consumeTok, peekTok, hplus, hminus, hpow]
  have hmul : ∀ f, parseMulDiv env (f + 4) ⟨[name], 0⟩ =
      .ok (entry.value, ⟨[name], 1⟩) := by
    intro f
    simp [parseMulDiv, hun, exceptBind_ok, mulDivLoop, hpeek1]
  have hadd : ∀ f, parseAddSub env (f + 5) ⟨[name], 0⟩ =
      .ok (entry.value, ⟨[name], 1⟩) := by
    intro f
    simp [parseAddSub, hmul, exceptBind_ok, addSubLoop, hpeek1]
  have hexpr : ∀ f, parseExpr env (f + 6) ⟨[name], 0⟩ =
      .ok (entry.value, ⟨[name], 1⟩) := by
    intro f
    simp [parseExpr, hadd]
  have hfuel : 8 * (([name] : List String).length + 1) = 10 + 6 := by simp
  unfold calculate
  rw [if_neg (by simp : ¬ ([name] : List String) = []), hfuel, hexpr 10,
    exceptBind_ok]
  simp [peekTok]

/-- **C8.**  Round-trip through the variable environment: for a valid
assignment input, tokenizing, splitting on `=`, evaluating the
remaining tokens to `v` and storing `v` under the variable name makes a
subsequent evaluation that looks the name up return exactly `v`.
("Valid" supplies that the stored name is an identifier: it does not
itself parse as a float and is none of the eight symbol tokens.) -/
theorem assignment_round_trip (input : List Char) (ts vts : List String)
    (name expr : String) (env : Env) (v : ℚ)
    (htok : tokenize input = ts)
    (hsplit : parse_variables ts = .ok ⟨name, vts⟩)
    (heval : calculate vts env = .ok v)
    (hname : parseNumber name = none)
    (hsym : name ∉ (["+", "-", "*", "/", "^", "(", ")", "="] : List String)) :
    calculate [name] (insertVar env name ⟨expr, v⟩) = .ok v := by
  have hget : getVar (insertVar env name ⟨expr, v⟩) name =
      some ⟨expr, v⟩ := by
    simp [getVar, insertVar, List.lookup]
  exact calculate_single_ident name _ ⟨expr, v⟩ hname
    (fun h => hsym (by rw [h]; simp))
    (fun h => hsym (by rw [h]; simp))
    (fun h => hsym (by rw [h]; simp))
    (fun h => hsym (by rw [h]; simp))
    hget

/-- Witness for C8: the assignment `"x=2+3"` stores `5` under `x`, and
evaluating `["x"]` afterwards returns `5`. -/
theorem assignment_round_trip_witness :
    calculate ["x"] (insertVar emptyEnv "x" ⟨"x=2+3", 5⟩) = .ok 5 := by
  have htok : tokenize "x=2+3".toList = ["x", "=", "2", "+", "3"] := by
    simp [tokenize, tokenizeGo, takeAlphaRun, takeNumberRun,
      needs_implicit_mul_before_ident, needs_implicit_mul_before_number,
      isAsciiWhitespace, isAsciiDigit, isAsciiAlpha, is_number_token,
      is_identifier_token, numberTokenScan]
  have heval : calculate ["2", "+", "3"] emptyEnv = .ok 5 := by
    have h : calculate ["2", "+", "3"] emptyEnv =
        .ok (numVal ['2'] + numVal ['3']) := rfl
    rw [h, numVal_two, numVal_three]
    norm_num
  exact assignment_round_trip "x=2+3".toList ["x", "=", "2", "+", "3"]
    ["2", "+", "3"] "x" "x=2+3" emptyEnv 5 htok rfl heval rfl (by decide)

namespace InputEditor

theorem skipWhile_stop (p : Char → Bool) (l : List Char) (j : Nat)
    (h : ∀ c, l.get? j = some c → p c = false) :
    skipWhile p l j = j := by
  rw [skipWhile.eq_def]
  cases hc : l.get? j with
  | none => rfl
  | some c => simp [h c hc]

theorem skipWhile_step (p : Char → Bool) (l : List Char) (j : Nat) (c : Char)
    (h : l.get? j = some c) (hp : p c = true) :
    skipWhile p l j = skipWhile p l (j + 1) := by
  conv_lhs => rw [skipWhile.eq_def]
  split
  · next c' heq =>
    rw [h] at heq
    injection heq with hcc
    subst hcc
    simp [hp]
  · next heq =>
    rw [h] at heq
    cases heq

/-- Scanning with `skipWhile` from the start of a run of characters all
satisfying `p`, followed by a character failing `p` (or the end of the
buffer), stops exactly at the end of the run. -/
theorem skipWhile_run (p : Char → Bool) (u v rest : List Char)
    (hv : ∀ c ∈ v, p c = true)
    (hrest : ∀ c, rest.head? = some c → p c = false) :
    skipWhile p (u ++ (v ++ rest)) u.length = u.length + v.length := by
  induction v generalizing u with
  | nil =>
    rw [List.nil_append]
    have hstop : ∀ c, (u ++ rest).get? u.length = some c → p c = false := by
      intro c hc
      apply hrest
      rwa [List.get?_append_right (le_refl u.length), Nat.sub_self,
        List.get?_zero] at hc
    rw [skipWhile_stop p (u ++ rest) u.length hstop]
    simp
  | cons c v ih =>
    have hget : (u ++ (c :: v ++ rest)).get? u.length = some c := by
      rw [List.get?_append_right (le_refl u.length), Nat.sub_self]
      rfl
    rw [skipWhile_step p _ u.length c hget (hv c (List.mem_cons_self c v))]
    have heq : u ++ (c :: v ++ rest) = (u ++ [c]) ++ (v ++ rest) := by simp
    have hlen : u.length + 1 = (u ++ [c]).length := by simp
    rw [heq, hlen, ih (u ++ [c]) (fun d hd => hv d (List.mem_cons_of_mem c hd))]
    simp
    omega

end InputEditor

namespace InputEditor

/-- `motion_target .WordForward` from a cursor sitting on a non-word
character: the cursor skips past the run of non-word characters and
lands on the **first** character of the following word (or on `len - 1`
when no word follows) — it does not skip past that word. -/
theorem motion_target_wf_on_nonword (ed : InputEditor)
    (u w rest : List Char)
    (hin : ed.input = u ++ (w ++ rest))
    (hcur : ed.cursor = u.length)
    (hw0 : w ≠ []) (hw : ∀ c ∈ w, is_word_char c = false)
    (hrest : ∀ c, rest.head? = some c → is_word_char c = true) :
    ed.motion_target .WordForward =
      if rest = [] then ed.input.length - 1
      else u.length + w.length := by
  obtain ⟨cw, w', rfl⟩ : ∃ cw w', w = cw :: w' := by
    cases w with
    | nil => exact absurd rfl hw0
    | cons cw w' => exact ⟨cw, w', rfl⟩
  have hlen : u.length < ed.input.length := by
    rw [hin]
    simp only [List.length_append, List.length_cons]
    omega
  have hlen0 : ed.input.length ≠ 0 := by omega
  have hi : min ed.cursor (ed.input.length - 1) = u.length := by
    rw [hcur]
    omega
  have hget : ed.input.get? u.length = some cw := by
    rw [hin, List.get?_append_right (le_refl u.length), Nat.sub_self]
    rfl
  have hgetD : ed.input.getD u.length ' ' = cw := by
    rw [List.getD_eq_getD_get?, hget]
    rfl
  have hskip : skipWhile (fun c => !(is_word_char c)) ed.input u.length =
      u.length + (cw :: w').length := by
    rw [hin]
    exact skipWhile_run _ u (cw :: w') rest
      (fun c hc => by simp [hw c hc])
      (fun c hc => by simp [hrest c hc])
  rw [motion_target]
  simp only [hlen0, if_false, hi, hgetD, hw cw (List.mem_cons_self cw w'),
    Bool.false_eq_true, if_false, hskip]
  have hltotal : ed.input.length =
      u.length + (cw :: w').length + rest.length := by
    rw [hin]
    simp only [List.length_append, List.length_cons]
    omega
  cases rest with
  | nil =>
    have : u.length + (cw :: w').length ≥ ed.input.length := by
      rw [hltotal]
      simp
    simp [this, hltotal]
  | cons cr r =>
    have hnge : ¬ (u.length + (cw :: w').length ≥ ed.input.length) := by
      rw [hltotal]
      simp only [List.length_cons]
      omega
    rw [if_neg (by simp : ¬ (cr :: r : List Char) = []), if_neg hnge]

end InputEditor

namespace InputEditor

/-- `motion_target .WordForward` from a cursor sitting on a word
character: skip to the end of the current word, then past the following
non-word characters, landing on the next word's first character (or
`len - 1` when no further word exists). -/
theorem motion_target_wf_on_word (ed : InputEditor)
    (u v w rest : List Char)
    (hin : ed.input = u ++ (v ++ (w ++ rest)))
    (hcur : ed.cursor = u.length)
    (hv0 : v ≠ []) (hv : ∀ c ∈ v, is_word_char c = true)
    (hw : ∀ c ∈ w, is_word_char c = false)
    (hrest : ∀ c, rest.head? = some c → is_word_char c = true)
    (hwe : w = [] → rest = []) :
    ed.motion_target .WordForward =
      if rest = [] then ed.input.length - 1
      else u.length + v.length + w.length := by
  obtain ⟨cv, v', rfl⟩ : ∃ cv v', v = cv :: v' := by
    cases v with
    | nil => exact absurd rfl hv0
    | cons cv v' => exact ⟨cv, v', rfl⟩
  have hlen : u.length < ed.input.length := by
    rw [hin]
    simp only [List.length_append, List.length_cons]
    omega
  have hlen0 : ed.input.length ≠ 0 := by omega
  have hi : min ed.cursor (ed.input.length - 1) = u.length := by
    rw [hcur]
    omega
  have hget : ed.input.get? u.length = some cv := by
    rw [hin, List.get?_append_right (le_refl u.length), Nat.sub_self]
    rfl
  have hgetD : ed.input.getD u.length ' ' = cv := by
    rw [List.getD_eq_getD_get?, hget]
    rfl
  have hskip1 : skipWhile is_word_char ed.input u.length =
      u.length + (cv :: v').length := by
    rw [hin]
    refine skipWhile_run _ u (cv :: v') (w ++ rest) hv ?_
    intro c hc
    cases w with
    | nil =>
      rw [hwe rfl] at hc
      simp at hc
    | cons d w' =>
      simp only [List.cons_append, List.head?_cons, Option.some.injEq] at hc
      rw [← hc]
      exact hw d (List.mem_cons_self d w')
  have hskip2 : skipWhile (fun c => !(is_word_char c)) ed.input
      (u.length + (cv :: v').length) =
      u.length + (cv :: v').length + w.length := by
    have hin' : ed.input = (u ++ (cv :: v')) ++ (w ++ rest) := by
      rw [hin]
      simp
    have hl : u.length + (cv :: v').length = (u ++ cv :: v').length := by
      simp
    rw [hin', hl,
      skipWhile_run _ (u ++ cv :: v') w rest
        (fun c hc => by simp [hw c hc])
        (fun c hc => by simp [hrest c hc])]
  rw [motion_target]
  simp only [hlen0, if_false, hi, hgetD,
    hv cv (List.mem_cons_self cv v'), if_true, hskip1, hskip2]
  have hltotal : ed.input.length =
      u.length + (cv :: v').length + w.length + rest.length := by
    rw [hin]
    simp only [List.length_append, List.length_cons]
    omega
  cases rest with
  | nil =>
    have hge : u.length + (cv :: v').length + w.length ≥ ed.input.length := by
      rw [hltotal]
      simp
    simp [hge, hltotal]
  | cons cr r =>
    have hnge : ¬ (u.length + (cv :: v').length + w.length ≥
        ed.input.length) := by
      rw [hltotal]
      simp only [List.length_cons]
      omega
    rw [if_neg (by simp : ¬ (cr :: r : List Char) = []), if_neg hnge]

end InputEditor

/-- Modelled from the claim's wording for C3's second clause: "if the
cursor is on a non-word character, the new cursor skips forward past
the non-word characters **and then past the following word**".  (The
first clause matches the code; this second `skipWhile` over the word is
where claim and code differ.) -/
def wordForwardClaimC3 (chars : List Char) (cursor : Nat) : Nat :=
  let len := chars.length
  if len = 0 then 0
  else
    let i := min cursor (len - 1)
    if InputEditor.is_word_char (chars.getD i ' ') then
      let j := InputEditor.skipWhile InputEditor.is_word_char chars i
      let j := InputEditor.skipWhile
        (fun c => !(InputEditor.is_word_char c)) chars j
      if j ≥ len then len - 1 else j
    else
      let j := InputEditor.skipWhile
        (fun c => !(InputEditor.is_word_char c)) chars i
      let j := InputEditor.skipWhile InputEditor.is_word_char chars j
      if j ≥ len then len - 1 else j

/-- **C3 counterexample.**  In the buffer `". ab cd"` with the cursor on
the non-word character `.` at index 0, the code's `WordForward` lands on
index 2 — the **first** character of the word `ab` — whereas the claim's
"skip past the non-word characters and then past the following word"
predicts index 4. -/
theorem motion_word_forward_counterexample :
    InputEditor.motion_target
      ⟨". ab cd".toList, 0, .Normal, [], none⟩ .WordForward = 2 ∧
    wordForwardClaimC3 ". ab cd".toList 0 = 4 ∧
    (2 : Nat) ≠ 4 := by
  have hconv : ". ab cd".toList = ['.', ' ', 'a', 'b', ' ', 'c', 'd'] := rfl
  refine ⟨?_, ?_, by omega⟩
  · have h := InputEditor.motion_target_wf_on_nonword
      ⟨". ab cd".toList, 0, .Normal, [], none⟩
      [] ['.', ' '] ['a', 'b', ' ', 'c', 'd']
      (by rw [hconv]; rfl) rfl (by simp) (by decide)
      (by
        intro c hc
        simp only [List.head?_cons, Option.some.injEq] at hc
        subst hc
        rfl)
    simpa using h
  · have h1 : InputEditor.skipWhile (fun c => !(InputEditor.is_word_char c))
        ['.', ' ', 'a', 'b', ' ', 'c', 'd'] 0 = 2 := by
      have h := InputEditor.skipWhile_run
        (fun c => !(InputEditor.is_word_char c))
        [] ['.', ' '] ['a', 'b', ' ', 'c', 'd'] (by decide)
        (by
          intro c hc
          simp only [List.head?_cons, Option.some.injEq] at hc
          subst hc
          rfl)
      simpa using h
    have h2 : InputEditor.skipWhile InputEditor.is_word_char
        ['.', ' ', 'a', 'b', ' ', 'c', 'd'] 2 = 4 := by
      have h := InputEditor.skipWhile_run InputEditor.is_word_char
        ['.', ' '] ['a', 'b'] [' ', 'c', 'd'] (by decide)
        (by
          intro c hc
          simp only [List.head?_cons, Option.some.injEq] at hc
          subst hc
          rfl)
      simpa using h
    simp [wordForwardClaimC3, hconv, h1, h2,
      show InputEditor.is_word_char '.' = false from rfl]

/-- **C3 (amended).**  The editor's `WordForward` motion: from a word
character, the cursor skips to the end of the current word and then
past following non-word characters, landing on the next word's first
character (or `len - 1` if no further word exists).  From a non-word
character, the cursor skips forward past the non-word characters and
lands **on the following word's first character** (or `len - 1` if no
word follows) — not past that word, as the original claim stated.
`motion_target` ignores the mode, so this covers Normal and Visual
alike. -/
theorem motion_word_forward_spec :
    (∀ (ed : InputEditor) (u v w rest : List Char),
      ed.input = u ++ (v ++ (w ++ rest)) → ed.cursor = u.length →
      v ≠ [] → (∀ c ∈ v, InputEditor.is_word_char c = true) →
      (∀ c ∈ w, InputEditor.is_word_char c = false) →
      (∀ c, rest.head? = some c → InputEditor.is_word_char c = true) →
      (w = [] → rest = []) →
      ed.motion_target .WordForward =
        if rest = [] then ed.input.length - 1
        else u.length + v.length + w.length) ∧
    (∀ (ed : InputEditor) (u w rest : List Char),
      ed.input = u ++ (w ++ rest) → ed.cursor = u.length →
      w ≠ [] → (∀ c ∈ w, InputEditor.is_word_char c = false) →
      (∀ c, rest.head? = some c → InputEditor.is_word_char c = true) →
      ed.motion_target .WordForward =
        if rest = [] then ed.input.length - 1
        else u.length + w.length) :=
  ⟨fun ed u v w rest h1 h2 h3 h4 h5 h6 h7 =>
    InputEditor.motion_target_wf_on_word ed u v w rest h1 h2 h3 h4 h5 h6 h7,
  fun ed u w rest h1 h2 h3 h4 h5 =>
    InputEditor.motion_target_wf_on_nonword ed u w rest h1 h2 h3 h4 h5⟩

/-- Witness for C3 (amended): in `"a b"` from the word character `a`
the cursor lands on `b` (index 2); in `" b"` from the non-word space
the cursor lands on `b` (index 1). -/
theorem motion_word_forward_spec_witness :
    InputEditor.motion_target
      ⟨['a', ' ', 'b'], 0, .Normal, [], none⟩ .WordForward = 2 ∧
    InputEditor.motion_target
      ⟨[' ', 'b'], 0, .Normal, [], none⟩ .WordForward = 1 := by
  constructor
  · have h := motion_word_forward_spec.1
      ⟨['a', ' ', 'b'], 0, .Normal, [], none⟩ [] ['a'] [' '] ['b']
      rfl rfl (by simp) (by decide) (by decide)
      (by
        intro c hc
        simp only [List.head?_cons, Option.some.injEq] at hc
        subst hc
        rfl)
      (by simp)
    simpa using h
  · have h := motion_word_forward_spec.2
      ⟨[' ', 'b'], 0, .Normal, [], none⟩ [] [' '] ['b']
      rfl rfl (by simp) (by decide)
      (by
        intro c hc
        simp only [List.head?_cons, Option.some.injEq] at hc
        subst hc
        rfl)
    simpa using h

namespace InputEditor

/-- The per-mode cursor range invariant of the spec: in Insert mode the
cursor lies in `[0, len]`; in Normal/Visual mode in `[0, max (len-1) 0]`
(`len - 1` in saturating `Nat` subtraction). -/
def cursorInv (ed : InputEditor) : Prop :=
  ed.cursor ≤
    if ed.mode = .Insert then ed.input.length else ed.input.length - 1

theorem length_insert_le (l : List Char) (c : Nat) (ch : Char)
    (h : c ≤ l.length) :
    (l.take c ++ ch :: l.drop c).length = l.length + 1 := by
  simp only [List.length_append, List.length_cons, List.length_take,
    List.length_drop]
  omega

theorem mode_enter_char (ed : InputEditor) (ch : Char) :
    (ed.enter_char ch).mode = ed.mode := rfl

theorem mode_backspace (ed : InputEditor) :
    ed.backspace.mode = ed.mode := by
  unfold backspace
  split <;> rfl

theorem mode_move_insert_left (ed : InputEditor) :
    ed.move_insert_left.mode = ed.mode := rfl

theorem mode_move_insert_right (ed : InputEditor) :
    ed.move_insert_right.mode = ed.mode := rfl

theorem mode_delete_under_cursor (ed : InputEditor) :
    ed.delete_under_cursor.mode = ed.mode := by
  unfold delete_under_cursor
  dsimp only
  split <;> rfl

theorem mode_yank_visual_selection (ed : InputEditor) :
    ed.yank_visual_selection.mode = ed.mode := by
  unfold yank_visual_selection
  split <;> rfl

theorem mode_delete_visual_selection (ed : InputEditor) :
    ed.delete_visual_selection.mode = ed.mode := by
  unfold delete_visual_selection
  split <;> rfl

theorem mode_clamp (ed : InputEditor) :
    ed.clamp_cursor_for_mode.mode = ed.mode := rfl

theorem mode_paste_after (ed : InputEditor) :
    ed.paste_after.mode = ed.mode := by
  unfold paste_after clamp_cursor_for_mode
  split <;> rfl

theorem mode_paste_before (ed : InputEditor) :
    ed.paste_before.mode = ed.mode := by
  unfold paste_before clamp_cursor_for_mode
  split <;> rfl

theorem mode_apply_motion (ed : InputEditor) (m : Motion) :
    (ed.apply_motion m).mode = ed.mode := rfl

theorem backSkipNonWord_le (l : List Char) (j : Nat) :
    backSkipNonWord l j ≤ j := by
  induction j with
  | zero => simp [backSkipNonWord]
  | succ j ih =>
    unfold backSkipNonWord
    split
    · omega
    · omega

theorem backSkipWord_le (l : List Char) (j : Nat) :
    backSkipWord l j ≤ j := by
  induction j with
  | zero => simp [backSkipWord]
  | succ j ih =>
    unfold backSkipWord
    split
    · omega
    · omega

theorem motion_target_le (ed : InputEditor) (m : Motion) :
    ed.motion_target m ≤ ed.input.length - 1 := by
  unfold motion_target
  by_cases h : ed.input.length = 0
  · simp [h]
  · simp only [h, if_false]
    have hmin : min ed.cursor (ed.input.length - 1) ≤ ed.input.length - 1 :=
      Nat.min_le_right _ _
    cases m <;> dsimp only
    · omega
    · have := Nat.min_le_right (min ed.cursor (ed.input.length - 1) + 1)
        (ed.input.length - 1)
      omega
    · omega
    · omega
    · split <;> split <;> omega
    · split
      · omega
      · have h1 := backSkipWord_le ed.input
          (backSkipNonWord ed.input (min ed.cursor (ed.input.length - 1) - 1))
        have h2 := backSkipNonWord_le ed.input
          (min ed.cursor (ed.input.length - 1) - 1)
        omega

theorem cursorInv_switch_to_normal_mode (ed : InputEditor) :
    cursorInv ed.switch_to_normal_mode := by
  unfold cursorInv switch_to_normal_mode char_len
  dsimp only
  simp only [reduceCtorEq, if_false]
  split
  · omega
  · cases ed.mode <;> dsimp only <;>
      exact Nat.min_le_right _ _

theorem cursorInv_switch_to_insert_mode (ed : InputEditor) :
    cursorInv ed.switch_to_insert_mode := by
  unfold cursorInv switch_to_insert_mode char_len
  dsimp only
  simp only [if_pos rfl]
  exact Nat.min_le_right _ _

theorem cursorInv_switch_to_visual_mode (ed : InputEditor) :
    cursorInv ed.switch_to_visual_mode := by
  unfold cursorInv switch_to_visual_mode char_len
  split <;> dsimp only <;> simp only [reduceCtorEq, if_false]
  · omega
  · exact Nat.min_le_right _ _

theorem cursorInv_clamp (ed : InputEditor) :
    cursorInv ed.clamp_cursor_for_mode := by
  unfold cursorInv clamp_cursor_for_mode char_len
  dsimp only
  cases hm : ed.mode <;> dsimp only <;> simp only [reduceCtorEq, if_false,
    if_pos rfl]
  · exact Nat.min_le_right _ _
  · split
    · omega
    · exact Nat.min_le_right _ _
  · split
    · omega
    · exact Nat.min_le_right _ _

theorem cursorInv_enter_char (ed : InputEditor) (ch : Char)
    (h : cursorInv ed) (hm : ed.mode = .Insert) :
    cursorInv (ed.enter_char ch) := by
  unfold cursorInv at *
  rw [mode_enter_char]
  rw [if_pos hm] at h
  have hl : (ed.enter_char ch).input.length = ed.input.length + 1 := by
    show (ed.input.take ed.cursor ++ ch :: ed.input.drop ed.cursor).length = _
    exact length_insert_le ed.input ed.cursor ch h
  show ed.cursor + 1 ≤ _
  rw [hl, if_pos hm]
  omega

theorem cursorInv_backspace (ed : InputEditor) (h : cursorInv ed) :
    cursorInv ed.backspace := by
  unfold cursorInv at *
  rw [mode_backspace]
  have hc : ed.cursor ≤ ed.input.length := by
    by_cases hm : ed.mode = .Insert
    · rw [if_pos hm] at h
      omega
    · rw [if_neg hm] at h
      omega
  by_cases h0 : ed.cursor = 0
  · have heq : ed.backspace = ed := by
      unfold backspace
      rw [if_pos h0]
    rw [heq]
    exact h
  · have hcur : ed.backspace.cursor = ed.cursor - 1 := by
      unfold backspace
      rw [if_neg h0]
    have hlen : ed.backspace.input.length = ed.input.length - 1 := by
      unfold backspace
      rw [if_neg h0]
      show (ed.input.take (ed.cursor - 1) ++ ed.input.drop ed.cursor).length = _
      simp only [List.length_append, List.length_take, List.length_drop]
      omega
    rw [hcur, hlen]
    by_cases hm : ed.mode = .Insert
    · rw [if_pos hm] at h ⊢
      omega
    · rw [if_neg hm] at h ⊢
      omega

theorem input_move_insert_left (ed : InputEditor) :
    ed.move_insert_left.input = ed.input := rfl

theorem cursorInv_move_insert_left (ed : InputEditor) (h : cursorInv ed) :
    cursorInv ed.move_insert_left := by
  unfold cursorInv at *
  rw [mode_move_insert_left, input_move_insert_left]
  show ed.cursor - 1 ≤ _
  by_cases hm : ed.mode = .Insert
  · rw [if_pos hm] at h ⊢
    omega
  · rw [if_neg hm] at h ⊢
    omega

theorem cursorInv_move_insert_right (ed : InputEditor)
    (hm : ed.mode = .Insert) : cursorInv ed.move_insert_right := by
  unfold cursorInv
  rw [mode_move_insert_right, hm]
  show min (ed.cursor + 1) ed.input.length ≤ _
  rw [if_pos rfl]
  exact Nat.min_le_right _ _

theorem cursorInv_delete_under_cursor (ed : InputEditor) (h : cursorInv ed) :
    cursorInv ed.delete_under_cursor := by
  unfold cursorInv at *
  rw [mode_delete_under_cursor]
  by_cases hguard : ed.char_len = 0 ∨ ed.cursor ≥ ed.char_len
  · have heq : ed.delete_under_cursor = ed := by
      unfold delete_under_cursor
      rw [if_pos hguard]
    rw [heq]
    exact h
  · have hcur0 : ed.cursor < ed.input.length := by
      unfold char_len at hguard
      omega
    have hlen : ed.delete_under_cursor.input.length =
        ed.input.length - 1 := by
      unfold delete_under_cursor
      rw [if_neg hguard]
      show (ed.input.take ed.cursor ++
        ed.input.drop (ed.cursor + 1)).length = _
      simp only [List.length_append, List.length_take, List.length_drop]
      omega
    have hcur : ed.delete_under_cursor.cursor =
        (if ed.delete_under_cursor.input.length = 0 then 0
          else if ed.cursor ≥ ed.delete_under_cursor.input.length then
            ed.delete_under_cursor.input.length - 1
          else ed.cursor) := by
      unfold delete_under_cursor
      rw [if_neg hguard]
    rw [hcur, hlen]
    by_cases hm : ed.mode = .Insert
    · rw [if_pos hm] at h ⊢
      split <;> try split
      all_goals omega
    · rw [if_neg hm] at h ⊢
      split <;> try split
      all_goals omega

theorem cursorInv_yank_visual_selection (ed : InputEditor) (h : cursorInv ed) :
    cursorInv ed.yank_visual_selection := by
  unfold cursorInv at *
  rw [mode_yank_visual_selection]
  have h1 : ed.yank_visual_selection.cursor = ed.cursor := by
    unfold yank_visual_selection
    split <;> rfl
  have h2 : ed.yank_visual_selection.input = ed.input := by
    unfold yank_visual_selection
    split <;> rfl
  rw [h1, h2]
  exact h

theorem cursorInv_delete_visual_selection (ed : InputEditor)
    (h : cursorInv ed) : cursorInv ed.delete_visual_selection := by
  unfold cursorInv at *
  rw [mode_delete_visual_selection]
  cases hv : ed.visual_range with
  | none =>
    have heq : ed.delete_visual_selection = ed := by
      unfold delete_visual_selection
      rw [hv]
    rw [heq]
    exact h
  | some r =>
    obtain ⟨a, b⟩ := r
    have hinp : ed.delete_visual_selection.input =
        ed.input.take a ++ ed.input.drop (b + 1) := by
      unfold delete_visual_selection
      rw [hv]
    have hcur : ed.delete_visual_selection.cursor =
        (if ed.delete_visual_selection.input.length = 0 then 0
          else min a (ed.delete_visual_selection.input.length - 1)) := by
      unfold delete_visual_selection
      rw [hv]
    rw [hcur, hinp]
    have hmin := Nat.min_le_right a
      ((ed.input.take a ++ ed.input.drop (b + 1)).length - 1)
    by_cases hm : ed.mode = .Insert
    · rw [if_pos hm]
      split <;> omega
    · rw [if_neg hm]
      split <;> omega

theorem cursorInv_paste_after (ed : InputEditor) (h : cursorInv ed) :
    cursorInv ed.paste_after := by
  unfold paste_after
  split
  · exact h
  · exact cursorInv_clamp _

theorem cursorInv_paste_before (ed : InputEditor) (h : cursorInv ed) :
    cursorInv ed.paste_before := by
  unfold paste_before
  split
  · exact h
  · exact cursorInv_clamp _

theorem input_apply_motion (ed : InputEditor) (m : Motion) :
    (ed.apply_motion m).input = ed.input := rfl

theorem cursorInv_apply_motion (ed : InputEditor) (m : Motion) :
    cursorInv (ed.apply_motion m) := by
  have hle := motion_target_le ed m
  unfold cursorInv
  rw [mode_apply_motion, input_apply_motion]
  show ed.motion_target m ≤ _
  by_cases hm : ed.mode = .Insert
  · rw [if_pos hm]
    omega
  · rw [if_neg hm]
    omega

end InputEditor


namespace InputEditor

theorem cursorInv_handle_insert (ed : InputEditor) (code : KeyCode)
    (h : cursorInv ed) (hm : ed.mode = .Insert) :
    cursorInv (ed.handle_insert_key code).1 := by
  cases code <;> dsimp only [handle_insert_key]
  · exact cursorInv_switch_to_normal_mode ed
  · exact h
  · exact h
  · exact h
  · exact cursorInv_backspace ed h
  · exact cursorInv_move_insert_left ed h
  · exact cursorInv_move_insert_right ed hm
  · exact cursorInv_enter_char ed _ h hm

theorem cursorInv_handle_normal (ed : InputEditor) (code : KeyCode)
    (h : cursorInv ed) :
    cursorInv (ed.handle_normal_key code).1 := by
  cases code with
  | Char c =>
    dsimp only [handle_normal_key]
    by_cases h1 : c = 'i'
    · rw [if_pos h1]
      exact cursorInv_switch_to_insert_mode ed
    rw [if_neg h1]
    by_cases h2 : c = 'a'
    · rw [if_pos h2]
      exact cursorInv_switch_to_insert_mode _
    rw [if_neg h2]
    by_cases h3 : c = 'I'
    · rw [if_pos h3]
      exact cursorInv_switch_to_insert_mode _
    rw [if_neg h3]
    by_cases h4 : c = 'A'
    · rw [if_pos h4]
      exact cursorInv_switch_to_insert_mode _
    rw [if_neg h4]
    by_cases h5 : c = 'x'
    · rw [if_pos h5]
      exact cursorInv_delete_under_cursor ed h
    rw [if_neg h5]
    by_cases h6 : c = 'v'
    · rw [if_pos h6]
      exact cursorInv_switch_to_visual_mode ed
    rw [if_neg h6]
    by_cases h7 : c = 'p'
    · rw [if_pos h7]
      exact cursorInv_paste_after ed h
    rw [if_neg h7]
    by_cases h8 : c = 'P'
    · rw [if_pos h8]
      exact cursorInv_paste_before ed h
    rw [if_neg h8]
    cases hmk : motion_from_key (KeyCode.Char c) with
    | some m =>
      simp only [hmk]
      exact cursorInv_apply_motion ed m
    | none =>
      simp only [hmk]
      exact h
  | Esc => exact h
  | Enter => exact h
  | Tab => exact h
  | BackTab => exact h
  | Backspace => exact h
  | Left => exact cursorInv_apply_motion ed .Left
  | Right => exact cursorInv_apply_motion ed .Right

theorem cursorInv_handle_visual (ed : InputEditor) (code : KeyCode)
    (h : cursorInv ed) :
    cursorInv (ed.handle_visual_key code).1 := by
  cases code with
  | Char c =>
    dsimp only [handle_visual_key]
    by_cases h1 : c = 'v'
    · rw [if_pos h1]
      exact cursorInv_switch_to_normal_mode ed
    rw [if_neg h1]
    by_cases h2 : c = 'y'
    · rw [if_pos h2]
      cases hy : ed.visual_range with
      | some r =>
        obtain ⟨a, b⟩ := r
        simp only [hy]
        exact cursorInv_switch_to_normal_mode _
      | none =>
        simp only [hy]
        exact cursorInv_switch_to_normal_mode _
    rw [if_neg h2]
    by_cases h3 : c = 'd' ∨ c = 'x'
    · rw [if_pos h3]
      exact cursorInv_switch_to_normal_mode _
    rw [if_neg h3]
    cases hmk : motion_from_key (KeyCode.Char c) with
    | some m =>
      simp only [hmk]
      exact cursorInv_apply_motion ed m
    | none =>
      simp only [hmk]
      exact h
  | Esc => exact cursorInv_switch_to_normal_mode ed
  | Enter => exact h
  | Tab => exact h
  | BackTab => exact h
  | Backspace => exact h
  | Left => exact cursorInv_apply_motion ed .Left
  | Right => exact cursorInv_apply_motion ed .Right

theorem cursorInv_handle_key (ed : InputEditor) (code : KeyCode)
    (h : cursorInv ed) : cursorInv (ed.handle_key_event code).1 := by
  unfold handle_key_event
  cases hm : ed.mode <;> dsimp only
  · exact cursorInv_handle_insert ed code h hm
  · exact cursorInv_handle_normal ed code h
  · exact cursorInv_handle_visual ed code h

theorem cursorInv_applyKeys (keys : List KeyCode) :
    ∀ ed : InputEditor, cursorInv ed → cursorInv (ed.applyKeys keys) := by
  induction keys with
  | nil => exact fun ed h => h
  | cons k ks ih => exact fun ed h => ih _ (cursorInv_handle_key ed k h)

end InputEditor

/-- **C5.**  For every sequence of key events applied to an editor
created empty via `new` or from a string via `with_input`, the cursor
stays within `[0, len]` while in Insert mode and within
`[0, max (len-1) 0]` while in Normal or Visual mode.  (Quantifying over
all key sequences covers the state after *each* event, every prefix
being such a sequence; the embedding is a total function, reflecting
that no key event panics.) -/
theorem editor_cursor_stays_in_mode_range (keys : List KeyCode)
    (s : List Char) :
    InputEditor.cursorInv (InputEditor.applyKeys InputEditor.new keys) ∧
    InputEditor.cursorInv
      (InputEditor.applyKeys (InputEditor.with_input s) keys) :=
  ⟨InputEditor.cursorInv_applyKeys keys InputEditor.new
      (by simp [InputEditor.cursorInv, InputEditor.new]),
    InputEditor.cursorInv_applyKeys keys (InputEditor.with_input s)
      (by simp [InputEditor.cursorInv, InputEditor.with_input])⟩

namespace InputEditor

/-- The visual-anchor invariant: `visual_anchor` is `Some` only while
the mode is Visual. -/
def anchorInv (ed : InputEditor) : Prop :=
  ed.visual_anchor.isSome = true → ed.mode = .Visual

theorem anchorInv_of_eq {ed ed' : InputEditor} (h : anchorInv ed)
    (ha : ed'.visual_anchor = ed.visual_anchor) (hm : ed'.mode = ed.mode) :
    anchorInv ed' := by
  intro hs
  rw [hm]
  exact h (by rwa [ha] at hs)

theorem anchor_enter_char (ed : InputEditor) (ch : Char) :
    (ed.enter_char ch).visual_anchor = ed.visual_anchor := rfl

theorem anchor_backspace (ed : InputEditor) :
    ed.backspace.visual_anchor = ed.visual_anchor := by
  unfold backspace
  split <;> rfl

theorem anchor_move_insert_left (ed : InputEditor) :
    ed.move_insert_left.visual_anchor = ed.visual_anchor := rfl

theorem anchor_move_insert_right (ed : InputEditor) :
    ed.move_insert_right.visual_anchor = ed.visual_anchor := rfl

theorem anchor_delete_under_cursor (ed : InputEditor) :
    ed.delete_under_cursor.visual_anchor = ed.visual_anchor := by
  unfold delete_under_cursor
  dsimp only
  split <;> rfl

theorem anchor_yank_visual_selection (ed : InputEditor) :
    ed.yank_visual_selection.visual_anchor = ed.visual_anchor := by
  unfold yank_visual_selection
  split <;> rfl

theorem anchor_delete_visual_selection (ed : InputEditor) :
    ed.delete_visual_selection.visual_anchor = ed.visual_anchor := by
  unfold delete_visual_selection
  split <;> rfl

theorem anchor_paste_after (ed : InputEditor) :
    ed.paste_after.visual_anchor = ed.visual_anchor := by
  unfold paste_after clamp_cursor_for_mode
  split <;> rfl

theorem anchor_paste_before (ed : InputEditor) :
    ed.paste_before.visual_anchor = ed.visual_anchor := by
  unfold paste_before clamp_cursor_for_mode
  split <;> rfl

theorem anchor_apply_motion (ed : InputEditor) (m : Motion) :
    (ed.apply_motion m).visual_anchor = ed.visual_anchor := rfl

theorem anchorInv_switch_to_insert_mode (ed : InputEditor) :
    anchorInv ed.switch_to_insert_mode := by
  intro hs
  simp [switch_to_insert_mode] at hs

theorem anchorInv_switch_to_normal_mode (ed : InputEditor) :
    anchorInv ed.switch_to_normal_mode := by
  intro hs
  simp [switch_to_normal_mode] at hs

theorem anchorInv_switch_to_visual_mode (ed : InputEditor) :
    anchorInv ed.switch_to_visual_mode := by
  intro _
  unfold switch_to_visual_mode
  split <;> rfl

end InputEditor

namespace InputEditor

theorem anchorInv_handle_insert (ed : InputEditor) (code : KeyCode)
    (h : anchorInv ed) : anchorInv (ed.handle_insert_key code).1 := by
  cases code <;> dsimp only [handle_insert_key]
  · exact anchorInv_switch_to_normal_mode ed
  · exact h
  · exact h
  · exact h
  · exact anchorInv_of_eq h (anchor_backspace ed) (mode_backspace ed)
  · exact anchorInv_of_eq h (anchor_move_insert_left ed)
      (mode_move_insert_left ed)
  · exact anchorInv_of_eq h (anchor_move_insert_right ed)
      (mode_move_insert_right ed)
  · exact anchorInv_of_eq h (anchor_enter_char ed _) (mode_enter_char ed _)

theorem anchorInv_handle_normal (ed : InputEditor) (code : KeyCode)
    (h : anchorInv ed) : anchorInv (ed.handle_normal_key code).1 := by
  cases code with
  | Char c =>
    dsimp only [handle_normal_key]
    by_cases h1 : c = 'i'
    · rw [if_pos h1]
      exact anchorInv_switch_to_insert_mode ed
    rw [if_neg h1]
    by_cases h2 : c = 'a'
    · rw [if_pos h2]
      exact anchorInv_switch_to_insert_mode _
    rw [if_neg h2]
    by_cases h3 : c = 'I'
    · rw [if_pos h3]
      exact anchorInv_switch_to_insert_mode _
    rw [if_neg h3]
    by_cases h4 : c = 'A'
    · rw [if_pos h4]
      exact anchorInv_switch_to_insert_mode _
    rw [if_neg h4]
    by_cases h5 : c = 'x'
    · rw [if_pos h5]
      exact anchorInv_of_eq h (anchor_delete_under_cursor ed)
        (mode_delete_under_cursor ed)
    rw [if_neg h5]
    by_cases h6 : c = 'v'
    · rw [if_pos h6]
      exact anchorInv_switch_to_visual_mode ed
    rw [if_neg h6]
    by_cases h7 : c = 'p'
    · rw [if_pos h7]
      exact anchorInv_of_eq h (anchor_paste_after ed) (mode_paste_after ed)
    rw [if_neg h7]
    by_cases h8 : c = 'P'
    · rw [if_pos h8]
      exact anchorInv_of_eq h (anchor_paste_before ed) (mode_paste_before ed)
    rw [if_neg h8]
    cases hmk : motion_from_key (KeyCode.Char c) with
    | some m =>
      simp only [hmk]
      exact anchorInv_of_eq h (anchor_apply_motion ed m)
        (mode_apply_motion ed m)
    | none =>
      simp only [hmk]
      exact h
  | Esc => exact h
  | Enter => exact h
  | Tab => exact h
  | BackTab => exact h
  | Backspace => exact h
  | Left =>
    exact anchorInv_of_eq h (anchor_apply_motion ed .Left)
      (mode_apply_motion ed .Left)
  | Right =>
    exact anchorInv_of_eq h (anchor_apply_motion ed .Right)
      (mode_apply_motion ed .Right)

theorem anchorInv_handle_visual (ed : InputEditor) (code : KeyCode)
    (h : anchorInv ed) : anchorInv (ed.handle_visual_key code).1 := by
  cases code with
  | Char c =>
    dsimp only [handle_visual_key]
    by_cases h1 : c = 'v'
    · rw [if_pos h1]
      exact anchorInv_switch_to_normal_mode ed
    rw [if_neg h1]
    by_cases h2 : c = 'y'
    · rw [if_pos h2]
      cases hy : ed.visual_range with
      | some r =>
        obtain ⟨a, b⟩ := r
        simp only [hy]
        exact anchorInv_switch_to_normal_mode _
      | none =>
        simp only [hy]
        exact anchorInv_switch_to_normal_mode _
    rw [if_neg h2]
    by_cases h3 : c = 'd' ∨ c = 'x'
    · rw [if_pos h3]
      exact anchorInv_switch_to_normal_mode _
    rw [if_neg h3]
    cases hmk : motion_from_key (KeyCode.Char c) with
    | some m =>
      simp only [hmk]
      exact anchorInv_of_eq h (anchor_apply_motion ed m)
        (mode_apply_motion ed m)
    | none =>
      simp only [hmk]
      exact h
  | Esc => exact anchorInv_switch_to_normal_mode ed
  | Enter => exact h
  | Tab => exact h
  | BackTab => exact h
  | Backspace => exact h
  | Left =>
    exact anchorInv_of_eq h (anchor_apply_motion ed .Left)
      (mode_apply_motion ed .Left)
  | Right =>
    exact anchorInv_of_eq h (anchor_apply_motion ed .Right)
      (mode_apply_motion ed .Right)

theorem anchorInv_handle_key (ed : InputEditor) (code : KeyCode)
    (h : anchorInv ed) : anchorInv (ed.handle_key_event code).1 := by
  unfold handle_key_event
  cases hm : ed.mode <;> dsimp only
  · exact anchorInv_handle_insert ed code h
  · exact anchorInv_handle_normal ed code h
  · exact anchorInv_handle_visual ed code h

theorem anchorInv_applyKeys (keys : List KeyCode) :
    ∀ ed : InputEditor, anchorInv ed → anchorInv (ed.applyKeys keys) := by
  induction keys with
  | nil => exact fun ed h => h
  | cons k ks ih => exact fun ed h => ih _ (anchorInv_handle_key ed k h)

end InputEditor

namespace InputEditor

theorem anchor_switch_to_normal_mode (ed : InputEditor) :
    ed.switch_to_normal_mode.visual_anchor = none := rfl

theorem mode_switch_to_normal_mode (ed : InputEditor) :
    ed.switch_to_normal_mode.mode = .Normal := rfl

theorem mode_switch_to_insert_mode (ed : InputEditor) :
    ed.switch_to_insert_mode.mode = .Insert := rfl

theorem switch_to_visual_anchor (ed : InputEditor) :
    (ed.input.length = 0 → ed.switch_to_visual_mode.visual_anchor = none) ∧
    (ed.input.length ≠ 0 → ed.switch_to_visual_mode.visual_anchor =
      some (min ed.cursor (ed.input.length - 1))) := by
  constructor <;> intro h <;> unfold switch_to_visual_mode char_len
  · rw [if_pos h]
  · rw [if_neg h]

theorem mode_handle_insert_ne_visual (ed : InputEditor) (code : KeyCode)
    (hm : ed.mode = .Insert) :
    (ed.handle_insert_key code).1.mode ≠ .Visual := by
  cases code <;> dsimp only [handle_insert_key]
  · rw [mode_switch_to_normal_mode]
    simp
  · rw [hm]
    simp
  · rw [hm]
    simp
  · rw [hm]
    simp
  · rw [mode_backspace, hm]
    simp
  · rw [mode_move_insert_left, hm]
    simp
  · rw [mode_move_insert_right, hm]
    simp
  · rw [mode_enter_char, hm]
    simp

theorem normal_enters_visual (ed : InputEditor) (code : KeyCode)
    (hm : ed.mode = .Normal)
    (hv : (ed.handle_normal_key code).1.mode = .Visual) :
    (ed.handle_normal_key code).1 = ed.switch_to_visual_mode := by
  cases code with
  | Char c =>
    dsimp only [handle_normal_key] at hv ⊢
    by_cases h1 : c = 'i'
    · rw [if_pos h1] at hv
      rw [mode_switch_to_insert_mode] at hv
      cases hv
    rw [if_neg h1] at hv ⊢
    by_cases h2 : c = 'a'
    · rw [if_pos h2] at hv
      rw [mode_switch_to_insert_mode] at hv
      cases hv
    rw [if_neg h2] at hv ⊢
    by_cases h3 : c = 'I'
    · rw [if_pos h3] at hv
      rw [mode_switch_to_insert_mode] at hv
      cases hv
    rw [if_neg h3] at hv ⊢
    by_cases h4 : c = 'A'
    · rw [if_pos h4] at hv
      rw [mode_switch_to_insert_mode] at hv
      cases hv
    rw [if_neg h4] at hv ⊢
    by_cases h5 : c = 'x'
    · rw [if_pos h5] at hv
      rw [mode_delete_under_cursor, hm] at hv
      cases hv
    rw [if_neg h5] at hv ⊢
    by_cases h6 : c = 'v'
    · rw [if_pos h6]
    rw [if_neg h6] at hv ⊢
    by_cases h7 : c = 'p'
    · rw [if_pos h7] at hv
      rw [mode_paste_after, hm] at hv
      cases hv
    rw [if_neg h7] at hv ⊢
    by_cases h8 : c = 'P'
    · rw [if_pos h8] at hv
      rw [mode_paste_before, hm] at hv
      cases hv
    rw [if_neg h8] at hv ⊢
    cases hmk : motion_from_key (KeyCode.Char c) with
    | some m =>
      simp only [hmk] at hv
      rw [mode_apply_motion, hm] at hv
      cases hv
    | none =>
      simp only [hmk] at hv
      rw [hm] at hv
      cases hv
  | Esc =>
    rw [show (ed.handle_normal_key .Esc).1 = ed from rfl, hm] at hv
    cases hv
  | Enter =>
    rw [show (ed.handle_normal_key .Enter).1 = ed from rfl, hm] at hv
    cases hv
  | Tab =>
    rw [show (ed.handle_normal_key .Tab).1 = ed from rfl, hm] at hv
    cases hv
  | BackTab =>
    rw [show (ed.handle_normal_key .BackTab).1 = ed from rfl, hm] at hv
    cases hv
  | Backspace =>
    rw [show (ed.handle_normal_key .Backspace).1 = ed from rfl, hm] at hv
    cases hv
  | Left =>
    rw [show (ed.handle_normal_key .Left).1 = ed.apply_motion .Left from rfl,
      mode_apply_motion, hm] at hv
    cases hv
  | Right =>
    rw [show (ed.handle_normal_key .Right).1 = ed.apply_motion .Right from
      rfl, mode_apply_motion, hm] at hv
    cases hv

theorem handle_key_event_insert (ed : InputEditor) (code : KeyCode)
    (hm : ed.mode = .Insert) :
    ed.handle_key_event code = ed.handle_insert_key code := by
  unfold handle_key_event
  rw [hm]

theorem handle_key_event_normal (ed : InputEditor) (code : KeyCode)
    (hm : ed.mode = .Normal) :
    ed.handle_key_event code = ed.handle_normal_key code := by
  unfold handle_key_event
  rw [hm]

theorem handle_key_event_visual (ed : InputEditor) (code : KeyCode)
    (hm : ed.mode = .Visual) :
    ed.handle_key_event code = ed.handle_visual_key code := by
  unfold handle_key_event
  rw [hm]

theorem handle_enters_visual (ed : InputEditor) (code : KeyCode)
    (hnm : ed.mode ≠ .Visual)
    (hv : (ed.handle_key_event code).1.mode = .Visual) :
    (ed.input.length = 0 →
      (ed.handle_key_event code).1.visual_anchor = none) ∧
    (ed.input.length ≠ 0 →
      (ed.handle_key_event code).1.visual_anchor =
        some (min ed.cursor (ed.input.length - 1))) := by
  cases hm : ed.mode
  · rw [handle_key_event_insert ed code hm] at hv
    exact absurd hv (mode_handle_insert_ne_visual ed code hm)
  · rw [handle_key_event_normal ed code hm] at hv ⊢
    rw [normal_enters_visual ed code hm hv]
    exact switch_to_visual_anchor ed
  · exact absurd hm hnm

theorem visual_leaves_clears_anchor (ed : InputEditor) (code : KeyCode)
    (hm : ed.mode = .Visual)
    (hv : (ed.handle_key_event code).1.mode ≠ .Visual) :
    (ed.handle_key_event code).1.visual_anchor = none := by
  rw [handle_key_event_visual ed code hm] at hv ⊢
  cases code with
  | Char c =>
    dsimp only [handle_visual_key] at hv ⊢
    by_cases h1 : c = 'v'
    · rw [if_pos h1]
      exact anchor_switch_to_normal_mode ed
    rw [if_neg h1] at hv ⊢
    by_cases h2 : c = 'y'
    · rw [if_pos h2] at hv ⊢
      cases hy : ed.visual_range with
      | some r =>
        obtain ⟨a, b⟩ := r
        simp only [hy]
        exact anchor_switch_to_normal_mode _
      | none =>
        simp only [hy]
        exact anchor_switch_to_normal_mode _
    rw [if_neg h2] at hv ⊢
    by_cases h3 : c = 'd' ∨ c = 'x'
    · rw [if_pos h3]
      exact anchor_switch_to_normal_mode _
    rw [if_neg h3] at hv ⊢
    cases hmk : motion_from_key (KeyCode.Char c) with
    | some m =>
      simp only [hmk] at hv
      rw [mode_apply_motion, hm] at hv
      exact absurd rfl hv
    | none =>
      simp only [hmk] at hv
      rw [hm] at hv
      exact absurd rfl hv
  | Esc => exact anchor_switch_to_normal_mode ed
  | Enter =>
    rw [show (ed.handle_visual_key .Enter).1 = ed from rfl, hm] at hv
    exact absurd rfl hv
  | Tab =>
    rw [show (ed.handle_visual_key .Tab).1 = ed from rfl, hm] at hv
    exact absurd rfl hv
  | BackTab =>
    rw [show (ed.handle_visual_key .BackTab).1 = ed from rfl, hm] at hv
    exact absurd rfl hv
  | Backspace =>
    rw [show (ed.handle_visual_key .Backspace).1 = ed from rfl, hm] at hv
    exact absurd rfl hv
  | Left =>
    rw [show (ed.handle_visual_key .Left).1 = ed.apply_motion .Left from rfl,
      mode_apply_motion, hm] at hv
    exact absurd rfl hv
  | Right =>
    rw [show (ed.handle_visual_key .Right).1 = ed.apply_motion .Right from
      rfl, mode_apply_motion, hm] at hv
    exact absurd rfl hv

end InputEditor

namespace InputEditor

theorem anchorInv_new : anchorInv new := by
  intro h
  simp [new] at h

theorem anchorInv_with_input (s : List Char) : anchorInv (with_input s) := by
  intro h
  simp [with_input] at h

end InputEditor

/-- **C6 counterexample.**  Pressing Esc then `v` on a freshly created
(empty) editor transitions into Visual mode but leaves `visual_anchor`
at `none`: entering Visual does NOT always set the anchor, contrary to
the claim. -/
theorem visual_anchor_not_always_set_counterexample :
    (InputEditor.applyKeys InputEditor.new
        [.Esc, .Char 'v']).mode = .Visual ∧
    (InputEditor.applyKeys InputEditor.new
        [.Esc, .Char 'v']).visual_anchor = none := ⟨rfl, rfl⟩

/-- **C6 (amended).**  (1) In every state reachable from `new` or
`with_input s` by key events, `visual_anchor` is `Some` only while the
mode is Visual.  (2) Any transition into Visual mode sets the anchor to
`min cursor (len - 1)` when the buffer is nonempty, and leaves it `none`
when the buffer is empty.  (3) Any transition out of Visual mode clears
the anchor to `none`. -/
theorem visual_anchor_mode_spec :
    (∀ (keys : List KeyCode) (s : List Char),
      InputEditor.anchorInv (InputEditor.applyKeys InputEditor.new keys) ∧
      InputEditor.anchorInv
        (InputEditor.applyKeys (InputEditor.with_input s) keys)) ∧
    (∀ (ed : InputEditor) (code : KeyCode),
      ed.mode ≠ .Visual →
      (ed.handle_key_event code).1.mode = .Visual →
      (ed.input.length = 0 →
        (ed.handle_key_event code).1.visual_anchor = none) ∧
      (ed.input.length ≠ 0 →
        (ed.handle_key_event code).1.visual_anchor =
          some (min ed.cursor (ed.input.length - 1)))) ∧
    (∀ (ed : InputEditor) (code : KeyCode),
      ed.mode = .Visual →
      (ed.handle_key_event code).1.mode ≠ .Visual →
      (ed.handle_key_event code).1.visual_anchor = none) := by
  refine ⟨fun keys s => ⟨?_, ?_⟩, ?_, ?_⟩
  · exact InputEditor.anchorInv_applyKeys keys _ InputEditor.anchorInv_new
  · exact InputEditor.anchorInv_applyKeys keys _
      (InputEditor.anchorInv_with_input s)
  · exact fun ed code hnm hv => InputEditor.handle_enters_visual ed code hnm hv
  · exact fun ed code hm hv =>
      InputEditor.visual_leaves_clears_anchor ed code hm hv

/-- Witness for C6: the theorem instantiated at concrete editors.  A
Normal-mode editor over `"a"` with cursor 0 enters Visual on `v` with
anchor `some 0`; a Visual-mode editor leaves Visual on Esc with anchor
cleared; the reachable-state invariant holds after pressing `v` from
`new`. -/
theorem visual_anchor_mode_spec_witness :
    ((⟨['a'], 0, .Normal, [], none⟩ : InputEditor).handle_key_event
        (.Char 'v')).1.visual_anchor = some 0 ∧
    ((⟨['a'], 0, .Visual, [], some 0⟩ : InputEditor).handle_key_event
        .Esc).1.visual_anchor = none ∧
    InputEditor.anchorInv (InputEditor.applyKeys InputEditor.new
      [.Char 'v']) := by
  refine ⟨?_, ?_, ?_⟩
  · have h := (visual_anchor_mode_spec.2.1 ⟨['a'], 0, .Normal, [], none⟩
      (.Char 'v') (by decide) rfl).2 (by decide)
    simpa using h
  · exact visual_anchor_mode_spec.2.2 ⟨['a'], 0, .Visual, [], some 0⟩
      .Esc rfl (by decide)
  · exact (visual_anchor_mode_spec.1 [.Char 'v'] []).1
